import Mathlib

/-!
Verification of the RAG pipeline core of `rag.js`: the text normalizer
(`preprocessText`), the sentence chunker (`splitIntoChunks`), the embedding
client (`getEmbedding`), index readiness polling (`waitForIndex`), namespace
lifecycle (`createUserIndex`, `clearIndex`, `deleteUserIndex`) and ingestion
(`addDocument`, `addDocuments`).

Strings are modelled as lists of characters (`String.data`).  The external
collaborators (the Ollama HTTP endpoints brought in by `fetch` and the
Pinecone vector store) are modelled as explicit oracle/environment values
passed to each operation, and each operation additionally returns the trace
of external calls it performed where a claim is about those calls.
-/

namespace Rag

/-- The punctuation class `[.,!?]` of the `preprocessText` regexes. -/
def isPunct (c : Char) : Bool :=
  c == '.' || c == ',' || c == '!' || c == '?'

/-- The sentence-delimiter class `[.!?]` that `splitIntoChunks` splits on. -/
def isSentPunct (c : Char) : Bool :=
  c == '.' || c == '!' || c == '?'

/-- JavaScript `\s` (the whitespace class used by the regexes and `trim`). -/
def isJsSpace (c : Char) : Bool :=
  c == ' ' || c == '\t' || c == '\n' || c == '\r' ||
  c.val == 0x0b || c.val == 0x0c || c.val == 0xa0 || c.val == 0x1680 ||
  (0x2000 ≤ c.val && c.val ≤ 0x200a) ||
  c.val == 0x2028 || c.val == 0x2029 || c.val == 0x202f ||
  c.val == 0x205f || c.val == 0x3000 || c.val == 0xfeff

/-- The ASCII class `[a-z]`. -/
def isLowerAZ (c : Char) : Bool := 'a' ≤ c && c ≤ 'z'

/-- The ASCII class `[A-Z]`. -/
def isUpperAZ (c : Char) : Bool := 'A' ≤ c && c ≤ 'Z'

/-- `.replace(/([a-z])([A-Z])/g, '$1 $2')`: insert a space between a
lowercase letter and an immediately following uppercase letter.  As in the
JavaScript global replace, scanning continues after the replaced pair. -/
def addCamelSpace : List Char → List Char
  | [] => []
  | [c] => [c]
  | c1 :: c2 :: rest =>
    if isLowerAZ c1 && isUpperAZ c2 then c1 :: ' ' :: c2 :: addCamelSpace rest
    else c1 :: addCamelSpace (c2 :: rest)

/-- `.replace(/\s+/g, ' ')`: collapse every maximal whitespace run to a
single space. -/
def collapseWs : List Char → List Char
  | [] => []
  | [c] => if isJsSpace c then [' '] else [c]
  | c1 :: c2 :: rest =>
    if isJsSpace c1 then
      if isJsSpace c2 then collapseWs (c2 :: rest)
      else ' ' :: collapseWs (c2 :: rest)
    else c1 :: collapseWs (c2 :: rest)

/-- Worker for `delWsBeforePunct`: `pending` holds the current (reversed)
whitespace run whose fate is not yet decided.  A run followed by a
punctuation character is dropped; any other run is emitted verbatim. -/
def delWsAux : List Char → List Char → List Char
  | pending, [] => pending.reverse
  | pending, c :: rest =>
    if isJsSpace c then delWsAux (c :: pending) rest
    else if isPunct c then c :: delWsAux [] rest
    else pending.reverse ++ c :: delWsAux [] rest

/-- `.replace(/\s+([.,!?])/g, '$1')`: delete every maximal whitespace run
that immediately precedes a punctuation character. -/
def delWsBeforePunct (l : List Char) : List Char := delWsAux [] l

/-- `.replace(/([.,!?])([^\s])/g, '$1 $2')`: insert a space between a
punctuation character and an immediately following non-whitespace character.
As in the JavaScript global replace, scanning continues after the replaced
pair, so the second character of a match is never itself treated as the
first character of another match. -/
def addWsAfterPunct : List Char → List Char
  | [] => []
  | [c] => [c]
  | c1 :: c2 :: rest =>
    if isPunct c1 && !isJsSpace c2 then c1 :: ' ' :: c2 :: addWsAfterPunct rest
    else c1 :: addWsAfterPunct (c2 :: rest)

/-- JavaScript `String.prototype.trim` on a character list. -/
def jsTrimL (l : List Char) : List Char :=
  ((l.dropWhile isJsSpace).reverse.dropWhile isJsSpace).reverse

/-- `preprocessText` from `rag.js`, on character lists: camel-case spacing,
whitespace collapsing, punctuation spacing, final trim — in source order. -/
def preprocessL (l : List Char) : List Char :=
  jsTrimL (addWsAfterPunct (delWsBeforePunct (collapseWs (addCamelSpace l))))

/-- `preprocessText` from `rag.js`. -/
def preprocessText (s : String) : String := ⟨preprocessL s.data⟩

/-- Worker for `splitSent`.  In mode `false` it accumulates the current
segment (reversed) in `seg`; in mode `true` it is skipping a maximal
delimiter run. -/
def splitSentGo : Bool → List Char → List Char → List (List Char)
  | false, seg, [] => [seg.reverse]
  | false, seg, c :: rest =>
    if isSentPunct c then seg.reverse :: splitSentGo true [] rest
    else splitSentGo false (c :: seg) rest
  | true, _, [] => [[]]
  | true, _, c :: rest =>
    if isSentPunct c then splitSentGo true [] rest
    else splitSentGo false [c] rest

/-- `cleanText.split(/[.!?]+/)`: split on maximal runs of sentence
delimiters, keeping empty segments exactly as JavaScript `split` does. -/
def splitSent (l : List Char) : List (List Char) := splitSentGo false [] l

/-- The sentence-accumulation loop of `splitIntoChunks`: trim each segment,
skip empty ones, greedily grow the current chunk while
`cur.length + t.length + 1 ≤ size`, otherwise flush `cur ++ "."` and start
over from `t`; finally flush the remaining buffer. -/
def chunkLoop (size : Nat) : List (List Char) → List Char → List (List Char)
  | [], cur => if cur = [] then [] else [cur ++ ['.']]
  | s :: ss, cur =>
    let t := jsTrimL s
    if t = [] then chunkLoop size ss cur
    else if cur.length + t.length + 1 ≤ size then
      chunkLoop size ss (cur ++ (if cur = [] then [] else ['.', ' ']) ++ t)
    else if cur = [] then chunkLoop size ss t
    else (cur ++ ['.']) :: chunkLoop size ss t

/-- `splitIntoChunks` from `rag.js`, on character lists. -/
def splitIntoChunksL (l : List Char) (size : Nat) : List (List Char) :=
  chunkLoop size (splitSent (preprocessL l)) []

/-- `splitIntoChunks(text, size)` from `rag.js`. -/
def splitIntoChunks (text : String) (size : Nat) : List String :=
  (splitIntoChunksL text.data size).map fun l => ⟨l⟩

/-- The non-empty trimmed sentences of the normalized text — the units the
chunk loop actually accumulates (segments of `preprocessText text` split on
`[.!?]+`, trimmed, empties dropped). -/
def sentencesOf (text : String) : List (List Char) :=
  ((splitSent (preprocessL text.data)).map jsTrimL).filter fun t => !t.isEmpty

example : splitIntoChunks "Hello world. This is great!" 15 =
    ["Hello world.", "This is great."] := by decide

example : preprocessText " a  b,c .d" = "a b, c. d" := by decide

/-! ## The record identifiers synthesized during ingestion -/

/-- The record id `` `doc_${Date.now()}_chunk_${i}` `` synthesized in
`addDocument` for chunk `i` when `Date.now()` returned `now`. -/
def makeId (now : Nat) (i : Nat) : String :=
  "doc_" ++ toString now ++ "_chunk_" ++ toString i

/-- The ids one `addDocument` call generates when `Date.now()` returns `now`
at every chunk and the document has `n` chunks. -/
def docChunkIds (now : Nat) (n : Nat) : List String :=
  (List.range n).map (makeId now)

/-! ## The embedding client -/

/-- JSON values, as far as `getEmbedding`'s response check inspects them. -/
inductive Json where
  | null
  | bool (b : Bool)
  | num (n : Int)
  | str (s : String)
  | arr (elems : List Json)
  | obj (fields : List (String × Json))

/-- One HTTP response from `POST /api/embeddings`, as `getEmbedding` sees
it: the status code and the parsed body's `embedding` field (`none` when the
field is absent). -/
structure FetchResponse where
  status : Nat
  embedding : Option Json

/-- `response.ok` in node-fetch: status in the 2xx range. -/
def FetchResponse.isOk (r : FetchResponse) : Bool :=
  200 ≤ r.status && r.status < 300

/-- JavaScript truthiness of the `embedding` field (`!data.embedding`). -/
def truthy : Option Json → Bool
  | none => false
  | some Json.null => false
  | some (Json.bool b) => b
  | some (Json.num n) => !(n == 0)
  | some (Json.str s) => !s.isEmpty
  | some (Json.arr _) => true
  | some (Json.obj _) => true

/-- `Array.isArray(data.embedding)`. -/
def isArrayField : Option Json → Bool
  | some (Json.arr _) => true
  | _ => false

/-- Whether a JSON value is a number. -/
def Json.isNum : Json → Bool
  | Json.num _ => true
  | _ => false

/-- Whether the `embedding` field holds a numeric array — the validation the
spec asks for. -/
def isNumericArray : Option Json → Bool
  | some (Json.arr elems) => elems.all Json.isNum
  | _ => false

/-- `getEmbedding` from `rag.js`: one `fetch` of the embeddings endpoint,
then the status check and the `!data.embedding || !Array.isArray(...)`
format check.  The second component counts the fetches performed — the
function performs exactly one and never retries. -/
def getEmbedding (resp : FetchResponse) : Except String (List Json) × Nat :=
  if !resp.isOk then
    (.error ("HTTP error! status: " ++ toString resp.status), 1)
  else if !truthy resp.embedding || !isArrayField resp.embedding then
    (.error "Invalid embedding format received from Ollama", 1)
  else
    match resp.embedding with
    | some (Json.arr elems) => (.ok elems, 1)
    | _ => (.error "Invalid embedding format received from Ollama", 1)

/-! ## Index readiness polling -/

/-- The shared Pinecone index name. -/
def INDEX_NAME : String := "rag-docs-llama"

/-- One `describeIndex` observation per attempt: `none` models a thrown
error, `some b` a response whose `status.ready` flag is `b`. -/
abbrev DescribeOracle := Nat → Option Bool

/-- Worker for `waitForIndex`, counting attempts down: `remaining` attempts
are left and `i` attempts have already been made.  Returns the result
together with the list of sleeps performed (in milliseconds): the loop
sleeps 2000 ms after every attempt that does not observe the ready flag. -/
def waitForIndexGo (env : DescribeOracle) (maxAttempts : Nat) :
    Nat → Nat → Except String Bool × List Nat
  | _, 0 =>
    (.error ("Index " ++ INDEX_NAME ++ " not ready after " ++
      toString maxAttempts ++ " attempts"), [])
  | i, remaining + 1 =>
    match env i with
    | some true => (.ok true, [])
    | _ =>
      let r := waitForIndexGo env maxAttempts (i + 1) remaining
      (r.1, 2000 :: r.2)

/-- `waitForIndex` from `rag.js`: poll `describeIndex` up to `maxAttempts`
times, sleeping 2000 ms between attempts; fail naming the index and the
attempt count when every attempt is exhausted. -/
def waitForIndex (env : DescribeOracle) (maxAttempts : Nat) :
    Except String Bool × List Nat :=
  waitForIndexGo env maxAttempts 0 maxAttempts

/-- The default `maxAttempts` of `waitForIndex`. -/
def defaultMaxAttempts : Nat := 10

/-! ## Namespace lifecycle -/

/-- The Pinecone calls `createUserIndex` can perform, for its call trace. -/
inductive PcAction where
  | describeIdx
  | createIdx
  | waitForIdx
deriving DecidableEq

/-- Environment of `createUserIndex`: whether the initial `describeIndex`
throws (index absent), and the describe oracle driving the subsequent
`waitForIndex` poll. -/
structure IndexEnv where
  describeFails : Bool
  poll : DescribeOracle

/-- `createUserIndex` from `rag.js`: try `describeIndex`; on success return
at once; on failure `createIndex` and then `waitForIndex`.  Returns the
result and the trace of Pinecone operations invoked. -/
def createUserIndex (env : IndexEnv) (userId : String) :
    Except String String × List PcAction :=
  if env.describeFails then
    match (waitForIndex env.poll defaultMaxAttempts).1 with
    | .ok _ =>
      (.ok ("Created index and ready for user " ++ userId),
        [PcAction.describeIdx, PcAction.createIdx, PcAction.waitForIdx])
    | .error e =>
      (.error e,
        [PcAction.describeIdx, PcAction.createIdx, PcAction.waitForIdx])
  else (.ok ("Index ready for user " ++ userId), [PcAction.describeIdx])

/-- The vector store as the lifecycle operations see it: the records of each
namespace plus the index-level schema (`ρ` is the record type, `σ` the
schema type — both opaque to these operations). -/
structure StoreState (ρ σ : Type) where
  namespaces : String → List ρ
  schema : σ

/-- `index.namespace(ns).deleteAll()`: empty one namespace, touch nothing
else. -/
def deleteAllNs {ρ σ : Type} (st : StoreState ρ σ) (ns : String) : StoreState ρ σ :=
  StoreState.mk (fun n => if n = ns then [] else st.namespaces n) st.schema

/-- Environment for the delete operations: the error `deleteAll` throws, if
any. -/
structure DeleteEnv where
  deleteAllErr : Option String

/-- `clearIndex` from `rag.js`: one `deleteAll` on the user's namespace.
Returns (result, resulting state, namespaces `deleteAll` was called on). -/
def clearIndex {ρ σ : Type} (env : DeleteEnv) (st : StoreState ρ σ)
    (userId : String) :
    Except String String × StoreState ρ σ × List String :=
  match env.deleteAllErr with
  | some e => (.error e, st, [userId])
  | none =>
    (.ok ("Documents cleared successfully for user " ++ userId),
      deleteAllNs st userId, [userId])

/-- `deleteUserIndex` from `rag.js`: `await clearIndex(userId)`, then
replace the success message. -/
def deleteUserIndex {ρ σ : Type} (env : DeleteEnv) (st : StoreState ρ σ)
    (userId : String) :
    Except String String × StoreState ρ σ × List String :=
  match clearIndex env st userId with
  | (.ok _, st2, tr) => (.ok ("Deleted all documents for user " ++ userId), st2, tr)
  | (.error e, st2, tr) => (.error e, st2, tr)

/-! ## Ingestion -/

/-- A record as `addDocument` upserts it: id, vector, and the metadata the
claims are about (chunk text and ordinals). -/
structure StoredRec where
  id : String
  values : List Int
  text : List Char
  chunkIndex : Nat
  totalChunks : Nat

/-- The ingestion environment of one `addDocument` call: the `Date.now()`
value, the outcome of `getEmbedding` for chunk `i`, and the error thrown by
the upsert of chunk `i` (if any). -/
structure IngestEnv where
  now : Nat
  embed : Nat → Except String (List Int)
  upsert : Nat → Option String

/-- A namespace-indexed record store; upserted records are appended. -/
abbrev IngestStore := String → List StoredRec

/-- Append one record to a namespace. -/
def upsertRec (st : IngestStore) (ns : String) (r : StoredRec) : IngestStore :=
  fun n => if n = ns then st n ++ [r] else st n

/-- The record `addDocument` builds for chunk `chunk` at index `i` out of
`total`, given the embedding `vec`. -/
def chunkRec (env : IngestEnv) (total : Nat) (chunk : List Char) (i : Nat)
    (vec : List Int) : StoredRec :=
  StoredRec.mk (makeId env.now i) vec chunk i total

/-- The records the loop of `addDocument` upserts for a chunk list starting
at index `i`, assuming every embedding succeeds. -/
def chunkRecs (env : IngestEnv) (total : Nat) : List (List Char) → Nat → List StoredRec
  | [], _ => []
  | c :: cs, i =>
    chunkRec env total c i ((env.embed i).toOption.getD []) :: chunkRecs env total cs (i + 1)

/-- The per-chunk loop of `addDocument`: embed chunk `i`, upsert the record,
collect `(id, chunk)`; the first failure propagates and the store keeps
exactly the records already upserted. -/
def addDocumentGo (env : IngestEnv) (userId : String) (total : Nat) :
    List (List Char) → Nat → IngestStore →
    Except String (List (String × List Char)) × IngestStore
  | [], _, st => (.ok [], st)
  | chunk :: rest, i, st =>
    match env.embed i with
    | .error e => (.error e, st)
    | .ok vec =>
      match env.upsert i with
      | some e => (.error e, st)
      | none =>
        let st2 := upsertRec st userId (chunkRec env total chunk i vec)
        match addDocumentGo env userId total rest (i + 1) st2 with
        | (.ok results, st3) => (.ok ((makeId env.now i, chunk) :: results), st3)
        | (.error e, st3) => (.error e, st3)

/-- `addDocument` from `rag.js`: chunk the text with the fixed
`CHUNK_SIZE = 1000`, then embed and upsert each chunk in order. -/
def addDocument (env : IngestEnv) (st : IngestStore) (userId : String)
    (text : String) :
    Except String (List (String × List Char)) × IngestStore :=
  let chunks := splitIntoChunksL text.data 1000
  addDocumentGo env userId chunks.length chunks 0 st

/-- `addDocuments` from `rag.js`: ingest each document of the batch in
order (`envs j` is the environment of the `j`-th `addDocument` call); the
first failing document aborts the batch. -/
def addDocuments (envs : Nat → IngestEnv) (userId : String) :
    List String → Nat → IngestStore →
    Except String (List (List (String × List Char))) × IngestStore
  | [], _, st => (.ok [], st)
  | doc :: docs, j, st =>
    match addDocument (envs j) st userId doc with
    | (.ok res, st2) =>
      match addDocuments envs userId docs (j + 1) st2 with
      | (.ok more, st3) => (.ok (res :: more), st3)
      | (.error e, st3) => (.error e, st3)
    | (.error e, st2) => (.error e, st2)

/-! ## Derived notions used in claim statements -/

/-- The join the chunk loop maintains: sentences joined with `". "` (how
`currentChunk` is built in `splitIntoChunks`). -/
def mkCur : List (List Char) → List Char
  | [] => []
  | [s] => s
  | s :: rest => s ++ ['.', ' '] ++ mkCur rest

/-- A flushed chunk: the joined sentences with the synthetic trailing
period. -/
def mkChunk (g : List (List Char)) : List Char := mkCur g ++ ['.']

/-- The chunk loop specialized to pre-trimmed, non-empty sentences (what
`chunkLoop` reduces to after trimming and dropping empty segments). -/
def chunkLoopT (size : Nat) : List (List Char) → List Char → List (List Char)
  | [], cur => if cur = [] then [] else [cur ++ ['.']]
  | t :: ss, cur =>
    if cur.length + t.length + 1 ≤ size then
      chunkLoopT size ss (cur ++ (if cur = [] then [] else ['.', ' ']) ++ t)
    else if cur = [] then chunkLoopT size ss t
    else (cur ++ ['.']) :: chunkLoopT size ss t

/-! ### Normal-form predicates for the idempotence of `preprocessText` -/

/-- After a whitespace character comes a non-whitespace, non-punctuation
character — the local shape `delWsBeforePunct` leaves behind when
whitespace runs are single. -/
def spacePairOk (a b : Char) : Prop :=
  isJsSpace a = true → (isJsSpace b = false ∧ isPunct b = false)

/-- No lowercase ASCII letter immediately followed by an uppercase one. -/
def noCamelPair (a b : Char) : Prop :=
  ¬ (isLowerAZ a = true ∧ isUpperAZ b = true)

/-- No two adjacent whitespace characters. -/
def noDoubleSpacePair (a b : Char) : Prop :=
  ¬ (isJsSpace a = true ∧ isJsSpace b = true)

/-- Every whitespace character is the plain space `' '`. -/
def allBlank (l : List Char) : Prop :=
  ∀ c ∈ l, isJsSpace c = true → c = ' '

/-- The insertions of `addWsAfterPunct` that survive a further
`delWsBeforePunct` pass: a space goes in after a punctuation character only
when the following character is neither whitespace nor punctuation.  On
strings whose whitespace satisfies `spacePairOk`,
`delWsBeforePunct ∘ addWsAfterPunct` computes exactly this function. -/
def insAfterPunct : List Char → List Char
  | [] => []
  | [c] => [c]
  | c1 :: c2 :: rest =>
    if isPunct c1 && !isJsSpace c2 then
      if isPunct c2 then c1 :: c2 :: insAfterPunct rest
      else c1 :: ' ' :: c2 :: insAfterPunct rest
    else c1 :: insAfterPunct (c2 :: rest)

/-- What claim C7 asserts of `getEmbedding` at one response (spec wording):
fail on non-2xx status, fail with the invalid-format error whenever the
`embedding` field is not a *numeric* array, otherwise return exactly that
array, and perform no retry. -/
def embedClaimAt (r : FetchResponse) : Prop :=
  (r.isOk = false →
    (getEmbedding r).1 = .error ("HTTP error! status: " ++ toString r.status)) ∧
  (r.isOk = true → isNumericArray r.embedding = false →
    (getEmbedding r).1 = .error "Invalid embedding format received from Ollama") ∧
  (∀ elems, r.isOk = true → r.embedding = some (Json.arr elems) →
    elems.all Json.isNum = true → (getEmbedding r).1 = .ok elems) ∧
  (getEmbedding r).2 = 1

end Rag

namespace Rag

/-! ## C4: record-identifier uniqueness (code bug) -/

/-- Claim C4: record identifiers synthesized during ingestion are unique
within the tenant's namespace, also across separate `addDocument` calls.
The code violates this: the id is `doc_${Date.now()}_chunk_${i}`, so two
documents ingested in the same millisecond (`Date.now()` returning the same
value, here 1730000000000) both produce the id `doc_1730000000000_chunk_0`
for their first chunk, and the second upsert silently overwrites the first
record.  This theorem evaluates the id generator at that failing input. -/
theorem makeId_collision_code_bug :
    ∃ id, id ∈ docChunkIds 1730000000000 1 ∧ id ∈ docChunkIds 1730000000000 2 :=
  ⟨makeId 1730000000000 0, by decide, by decide⟩

/-! ## C5: `createUserIndex` on an existing index -/

/-- Claim C5: if `describeIndex` succeeds, `createUserIndex` returns success
immediately without calling `createIndex` or `waitForIndex`; in particular
two consecutive calls on an already-ready index both succeed and
`createIndex` is never invoked (the combined trace of both calls contains
no `createIndex`). -/
theorem createUserIndex_describe_ok_spec (env : IndexEnv) (userId : String)
    (h : env.describeFails = false) :
    createUserIndex env userId =
      (.ok ("Index ready for user " ++ userId), [PcAction.describeIdx]) ∧
    PcAction.createIdx ∉
      ((createUserIndex env userId).2 ++ (createUserIndex env userId).2) ∧
    PcAction.waitForIdx ∉
      ((createUserIndex env userId).2 ++ (createUserIndex env userId).2) := by
  simp [createUserIndex, h]

/-- Witness for C5 at a concrete environment whose `describeIndex`
succeeds. -/
theorem createUserIndex_describe_ok_spec_witness :
    createUserIndex (IndexEnv.mk false fun _ => none) "alice" =
      (.ok ("Index ready for user " ++ "alice"), [PcAction.describeIdx]) ∧
    PcAction.createIdx ∉
      ((createUserIndex (IndexEnv.mk false fun _ => none) "alice").2 ++
        (createUserIndex (IndexEnv.mk false fun _ => none) "alice").2) ∧
    PcAction.waitForIdx ∉
      ((createUserIndex (IndexEnv.mk false fun _ => none) "alice").2 ++
        (createUserIndex (IndexEnv.mk false fun _ => none) "alice").2) :=
  createUserIndex_describe_ok_spec (IndexEnv.mk false fun _ => none) "alice" rfl

/-! ## C6: readiness polling -/

theorem waitForIndexGo_ok (env : DescribeOracle) (maxA : Nat) :
    ∀ remaining i k, i + remaining = maxA → i ≤ k → k < maxA →
      env k = some true → (∀ j, i ≤ j → j < k → env j ≠ some true) →
      waitForIndexGo env maxA i remaining = (.ok true, List.replicate (k - i) 2000) := by
  intro remaining
  induction remaining with
  | zero => intro i k h1 h2 h3 _ _; omega
  | succ m ih =>
    intro i k h1 h2 h3 hr hmin
    rcases Nat.eq_or_lt_of_le h2 with heq | hlt
    · subst heq
      simp [waitForIndexGo, hr]
    · have hne : env i ≠ some true := hmin i le_rfl hlt
      have hrec := ih (i + 1) k (by omega) (by omega) h3 hr
        (fun j hj1 hj2 => hmin j (by omega) hj2)
      have hrepl : (2000 :: List.replicate (k - (i + 1)) 2000) = List.replicate (k - i) 2000 := by
        have : k - i = (k - (i + 1)) + 1 := by omega
        rw [this, List.replicate_succ]
      match he : env i with
      | some true => exact absurd he hne
      | some false => simp [waitForIndexGo, he, hrec, ← hrepl]
      | none => simp [waitForIndexGo, he, hrec, ← hrepl]

theorem waitForIndexGo_exhaust (env : DescribeOracle) (maxA : Nat) :
    ∀ remaining i, i + remaining = maxA →
      (∀ k, i ≤ k → k < maxA → env k ≠ some true) →
      waitForIndexGo env maxA i remaining =
        (.error ("Index " ++ INDEX_NAME ++ " not ready after " ++
          toString maxA ++ " attempts"), List.replicate remaining 2000) := by
  intro remaining
  induction remaining with
  | zero => intro i _ _; simp [waitForIndexGo]
  | succ m ih =>
    intro i h1 hall
    have hne : env i ≠ some true := hall i le_rfl (by omega)
    have hrec := ih (i + 1) (by omega) (fun k hk1 hk2 => hall k (by omega) hk2)
    match he : env i with
    | some true => exact absurd he hne
    | some false => simp [waitForIndexGo, he, hrec, List.replicate_succ]
    | none => simp [waitForIndexGo, he, hrec, List.replicate_succ]

/-- Claim C6: `waitForIndex` polls `describeIndex` at a fixed 2000 ms
interval for at most `maxAttempts` attempts (the source default being 10);
it returns success as soon as an attempt observes the ready flag (having
slept once per earlier failed attempt), and when all attempts are exhausted
it fails with an error naming the index and the attempt count, after
exactly `maxAttempts` sleeps of 2000 ms. -/
theorem waitForIndex_spec (env : DescribeOracle) (maxA : Nat) :
    defaultMaxAttempts = 10 ∧
    (∀ k, k < maxA → env k = some true → (∀ j, j < k → env j ≠ some true) →
      waitForIndex env maxA = (.ok true, List.replicate k 2000)) ∧
    ((∀ k, k < maxA → env k ≠ some true) →
      waitForIndex env maxA =
        (.error ("Index " ++ INDEX_NAME ++ " not ready after " ++
          toString maxA ++ " attempts"), List.replicate maxA 2000)) := by
  refine ⟨rfl, ?_, ?_⟩
  · intro k hk hr hmin
    have := waitForIndexGo_ok env maxA maxA 0 k (by omega) (by omega) hk hr
      (fun j _ hj2 => hmin j hj2)
    simpa [waitForIndex] using this
  · intro hall
    have := waitForIndexGo_exhaust env maxA maxA 0 (by omega)
      (fun k _ hk2 => hall k hk2)
    simpa [waitForIndex] using this

/-- Witness for C6: a poll that becomes ready on the third attempt succeeds
after two sleeps, and a poll that never observes readiness exhausts two
attempts and fails with the message naming the index and the count. -/
theorem waitForIndex_spec_witness :
    waitForIndex (fun k => if k = 2 then some true else none) 10 =
      (.ok true, List.replicate 2 2000) ∧
    waitForIndex (fun _ => some false) 2 =
      (.error ("Index " ++ INDEX_NAME ++ " not ready after " ++
        toString 2 ++ " attempts"), List.replicate 2 2000) := by
  constructor
  · exact (waitForIndex_spec (fun k => if k = 2 then some true else none) 10).2.1 2
      (by decide) (by decide) (by decide)
  · exact (waitForIndex_spec (fun _ => some false) 2).2.2 (by decide)

/-! ## C7: the embedding client's validation (corrected) -/

/-- Counterexample to claim C7 as stated: on a 2xx response whose
`embedding` field is the array `["x"]` — an array, but not a *numeric*
array — `getEmbedding` does not fail with the invalid-format error; it
returns the array.  The code only checks `Array.isArray`, never the element
type. -/
theorem getEmbedding_numeric_claim_false :
    ¬ embedClaimAt (FetchResponse.mk 200 (some (Json.arr [Json.str "x"]))) := by
  intro h
  have hbad := h.2.1 (by decide) (by decide)
  have hok : (getEmbedding (FetchResponse.mk 200 (some (Json.arr [Json.str "x"])))).1 =
      .ok [Json.str "x"] := rfl
  rw [hok] at hbad
  exact Except.noConfusion hbad

/-- Claim C7 as amended: `getEmbedding` fails with the transport error on
every non-2xx status; it fails with the invalid-response-format error
whenever the `embedding` field is not an array (element types are not
checked); when the field is an array it returns exactly its elements; and
it performs exactly one fetch, with no retry. -/
theorem getEmbedding_spec (r : FetchResponse) :
    (r.isOk = false →
      (getEmbedding r).1 = .error ("HTTP error! status: " ++ toString r.status)) ∧
    (r.isOk = true → isArrayField r.embedding = false →
      (getEmbedding r).1 = .error "Invalid embedding format received from Ollama") ∧
    (∀ elems, r.isOk = true → r.embedding = some (Json.arr elems) →
      (getEmbedding r).1 = .ok elems) ∧
    (getEmbedding r).2 = 1 := by
  refine ⟨?_, ?_, ?_, ?_⟩
  · intro h
    simp [getEmbedding, h]
  · intro h1 h2
    have ht : (!truthy r.embedding || !isArrayField r.embedding) = true := by
      simp [h2]
    simp only [getEmbedding, h1, Bool.not_true, Bool.false_eq_true, if_false, ht, if_true]
  · intro elems h1 h2
    simp [getEmbedding, h1, h2, truthy, isArrayField]
  · unfold getEmbedding
    split
    · rfl
    · split
      · rfl
      · split <;> rfl

/-- Witness for C7's amended claim: a 500 response yields the transport
error; a 2xx response whose `embedding` is the number 5 (not an array)
yields the format error; a 2xx response carrying the array `[1, 2]` yields
exactly that array; each performs exactly one fetch. -/
theorem getEmbedding_spec_witness :
    (getEmbedding (FetchResponse.mk 500 none)).1 =
      .error ("HTTP error! status: " ++ toString 500) ∧
    (getEmbedding (FetchResponse.mk 200 (some (Json.num 5)))).1 =
      .error "Invalid embedding format received from Ollama" ∧
    (getEmbedding (FetchResponse.mk 200 (some (Json.arr [Json.num 1, Json.num 2])))).1 =
      .ok [Json.num 1, Json.num 2] ∧
    (getEmbedding (FetchResponse.mk 500 none)).2 = 1 := by
  refine ⟨?_, ?_, ?_, ?_⟩
  · exact (getEmbedding_spec (FetchResponse.mk 500 none)).1 (by decide)
  · exact (getEmbedding_spec (FetchResponse.mk 200 (some (Json.num 5)))).2.1
      (by decide) (by decide)
  · exact (getEmbedding_spec
      (FetchResponse.mk 200 (some (Json.arr [Json.num 1, Json.num 2])))).2.2.1
      [Json.num 1, Json.num 2] (by decide) rfl
  · exact (getEmbedding_spec (FetchResponse.mk 500 none)).2.2.2

/-! ## C8: `deleteUserIndex` is `clearIndex` up to the success message -/

/-- Claim C8: for every environment, store state and tenant id,
`deleteUserIndex` and `clearIndex` both perform exactly one `deleteAll`, on
that tenant's namespace; they produce the same resulting store state, which
keeps the index schema and every other namespace unchanged; they succeed or
fail together (with the same error), and in the success case they differ
only in the message text, the tenant's namespace being emptied. -/
theorem deleteUserIndex_eq_clearIndex {ρ σ : Type} (env : DeleteEnv)
    (st : StoreState ρ σ) (userId : String) :
    (clearIndex env st userId).2.2 = [userId] ∧
    (deleteUserIndex env st userId).2.2 = [userId] ∧
    (deleteUserIndex env st userId).2.1 = (clearIndex env st userId).2.1 ∧
    ((deleteUserIndex env st userId).2.1).schema = st.schema ∧
    (∀ n, n ≠ userId →
      ((deleteUserIndex env st userId).2.1).namespaces n = st.namespaces n) ∧
    ((∃ e, (clearIndex env st userId).1 = .error e ∧
        (deleteUserIndex env st userId).1 = .error e) ∨
      ((clearIndex env st userId).1 =
          .ok ("Documents cleared successfully for user " ++ userId) ∧
        (deleteUserIndex env st userId).1 =
          .ok ("Deleted all documents for user " ++ userId) ∧
        ((deleteUserIndex env st userId).2.1).namespaces userId = [])) := by
  match he : env.deleteAllErr with
  | some e =>
    refine ⟨?_, ?_, ?_, ?_, ?_, .inl ⟨e, ?_, ?_⟩⟩ <;>
      simp [clearIndex, deleteUserIndex, he]
  | none =>
    refine ⟨?_, ?_, ?_, ?_, ?_, .inr ⟨?_, ?_, ?_⟩⟩ <;>
      simp [clearIndex, deleteUserIndex, he, deleteAllNs]
    intro n hn
    simp [hn]

/-- Witness for C8 at a concrete environment, store and tenant: one
`deleteAll` on the tenant's namespace, the success messages, and the
emptied namespace. -/
theorem deleteUserIndex_eq_clearIndex_witness :
    (clearIndex (DeleteEnv.mk none)
      (StoreState.mk (fun _ => ([0] : List Nat)) (4096 : Nat)) "bob").2.2 = ["bob"] ∧
    (deleteUserIndex (DeleteEnv.mk none)
      (StoreState.mk (fun _ => ([0] : List Nat)) (4096 : Nat)) "bob").1 =
      .ok ("Deleted all documents for user " ++ "bob") ∧
    ((deleteUserIndex (DeleteEnv.mk none)
      (StoreState.mk (fun _ => ([0] : List Nat)) (4096 : Nat)) "bob").2.1).schema = 4096 ∧
    ((deleteUserIndex (DeleteEnv.mk none)
      (StoreState.mk (fun _ => ([0] : List Nat)) (4096 : Nat)) "bob").2.1).namespaces "bob" = [] ∧
    ((deleteUserIndex (DeleteEnv.mk none)
      (StoreState.mk (fun _ => ([0] : List Nat)) (4096 : Nat)) "bob").2.1).namespaces "carol" = [0] := by
  have h := deleteUserIndex_eq_clearIndex (DeleteEnv.mk none)
    (StoreState.mk (fun _ => ([0] : List Nat)) (4096 : Nat)) "bob"
  rcases h with ⟨h1, _, _, h4, h5, hcase⟩
  rcases hcase with ⟨e, he, _⟩ | ⟨_, hd2, hd3⟩
  · exact absurd he (by simp [clearIndex])
  · exact ⟨h1, hd2, h4, hd3, h5 "carol" (by decide)⟩

/-! ## C9: failure during ingestion -/

theorem addDocumentGo_fail (env : IngestEnv) (userId : String) (total : Nat)
    (e : String) :
    ∀ k cs i st, k < cs.length →
      (∀ d, d < k → (∃ v, env.embed (i + d) = .ok v) ∧ env.upsert (i + d) = none) →
      (env.embed (i + k) = .error e ∨
        ((∃ v, env.embed (i + k) = .ok v) ∧ env.upsert (i + k) = some e)) →
      (addDocumentGo env userId total cs i st).1 = .error e ∧
      ∀ ns, (addDocumentGo env userId total cs i st).2 ns =
        if ns = userId then st ns ++ chunkRecs env total (cs.take k) i else st ns := by
  intro k
  induction k with
  | zero =>
    intro cs i st hlen _ hfail
    match cs with
    | [] => simp at hlen
    | c :: rest =>
      rcases hfail with hemb | ⟨⟨v, hv⟩, hup⟩
      · rw [Nat.add_zero] at hemb
        constructor
        · simp [addDocumentGo, hemb]
        · intro ns
          simp [addDocumentGo, hemb, chunkRecs]
      · rw [Nat.add_zero] at hv hup
        constructor
        · simp [addDocumentGo, hv, hup]
        · intro ns
          simp [addDocumentGo, hv, hup, chunkRecs]
  | succ m ih =>
    intro cs i st hlen hgood hfail
    match cs with
    | [] => simp at hlen
    | c :: rest =>
      obtain ⟨⟨v, hv⟩, hup⟩ := hgood 0 (Nat.succ_pos m)
      rw [Nat.add_zero] at hv hup
      have hrec := ih rest (i + 1)
        (upsertRec st userId (chunkRec env total c i v))
        (by simp only [List.length_cons] at hlen; omega)
        (fun d hd => by
          have h2 := hgood (d + 1) (by omega)
          rw [show i + (d + 1) = i + 1 + d by omega] at h2
          exact h2)
        (by rw [show i + (m + 1) = i + 1 + m by omega] at hfail; exact hfail)
      rcases hgo : addDocumentGo env userId total rest (i + 1)
          (upsertRec st userId (chunkRec env total c i v)) with ⟨r, st3⟩
      rw [hgo] at hrec
      have hr : r = Except.error e := hrec.1
      subst hr
      constructor
      · simp [addDocumentGo, hv, hup, hgo]
      · intro ns
        simp only [addDocumentGo, hv, hup, hgo]
        have h2 : st3 ns =
            if ns = userId then
              upsertRec st userId (chunkRec env total c i v) ns ++
                chunkRecs env total (rest.take m) (i + 1)
            else upsertRec st userId (chunkRec env total c i v) ns := hrec.2 ns
        by_cases hns : ns = userId
        · subst hns
          simp only [h2, if_pos rfl]
          simp [upsertRec, chunkRecs, chunkRec, hv, Except.toOption]
        · simp only [h2, if_neg hns]
          simp [upsertRec, hns]

/-- Claim C9, first part at the level of `addDocument` and second part at
the level of `addDocuments`: if ingestion fails while processing chunk `k`
(the embedding call or the upsert throws), the records upserted for chunks
`0..k-1` remain in the tenant's namespace — nothing is rolled back, no other
namespace is touched — and the error propagates to the caller; and in a
batch, a document whose `addDocument` call fails aborts the batch with that
error and with the store exactly as the failing call left it, so no later
document in the sequence is ingested. -/
theorem ingestion_failure_spec :
    (∀ (env : IngestEnv) (st : IngestStore) (userId text : String) (k : Nat)
        (e : String),
      k < (splitIntoChunksL text.data 1000).length →
      (∀ i, i < k → (∃ v, env.embed i = .ok v) ∧ env.upsert i = none) →
      (env.embed k = .error e ∨
        ((∃ v, env.embed k = .ok v) ∧ env.upsert k = some e)) →
      (addDocument env st userId text).1 = .error e ∧
      (addDocument env st userId text).2 userId =
        st userId ++ chunkRecs env (splitIntoChunksL text.data 1000).length
          ((splitIntoChunksL text.data 1000).take k) 0 ∧
      (∀ ns, ns ≠ userId → (addDocument env st userId text).2 ns = st ns)) ∧
    (∀ (envs : Nat → IngestEnv) (userId d : String) (docs : List String)
        (j : Nat) (st : IngestStore) (e : String),
      (addDocument (envs j) st userId d).1 = .error e →
      addDocuments envs userId (d :: docs) j st =
        (.error e, (addDocument (envs j) st userId d).2)) := by
  constructor
  · intro env st userId text k e hlen hgood hfail
    have h := addDocumentGo_fail env userId
      (splitIntoChunksL text.data 1000).length e k
      (splitIntoChunksL text.data 1000) 0 st hlen
      (fun d hd => by simpa using hgood d hd)
      (by simpa using hfail)
    refine ⟨h.1, ?_, ?_⟩
    · have := h.2 userId
      simpa [addDocument] using this
    · intro ns hns
      have := h.2 ns
      simpa [addDocument, hns] using this
  · intro envs userId d docs j st e h
    have hsplit : addDocument (envs j) st userId d =
        (.error e, (addDocument (envs j) st userId d).2) := by
      rw [← h]
    simp only [addDocuments]
    rw [hsplit]

/-- Witness for C9: a document whose very first chunk's embedding call
throws leaves the store untouched and propagates the error, and a batch
whose first document fails aborts with that error. -/
theorem ingestion_failure_spec_witness :
    (addDocument (IngestEnv.mk 5 (fun _ => .error "boom") fun _ => none)
      (fun _ => []) "u" "Hi.").1 = .error "boom" ∧
    (addDocument (IngestEnv.mk 5 (fun _ => .error "boom") fun _ => none)
      (fun _ => []) "u" "Hi.").2 "u" = [] ∧
    addDocuments (fun _ => IngestEnv.mk 5 (fun _ => .error "boom") fun _ => none)
      "u" ["Hi.", "Bye."] 0 (fun _ => []) =
      (.error "boom",
        (addDocument (IngestEnv.mk 5 (fun _ => .error "boom") fun _ => none)
          (fun _ => []) "u" "Hi.").2) := by
  have h := ingestion_failure_spec.1
    (IngestEnv.mk 5 (fun _ => .error "boom") fun _ => none)
    (fun _ => []) "u" "Hi." 0 "boom" (by decide)
    (fun i hi => absurd hi (by omega)) (.inl rfl)
  refine ⟨h.1, by simpa using h.2.1, ?_⟩
  exact ingestion_failure_spec.2
    (fun _ => IngestEnv.mk 5 (fun _ => .error "boom") fun _ => none)
    "u" "Hi." ["Bye."] 0 (fun _ => []) "boom" h.1

/-! ## The chunker: shared lemmas for C1, C3 and C10 -/

theorem head?_dropWhile_false (p : Char → Bool) :
    ∀ (l : List Char) (c : Char), (l.dropWhile p).head? = some c → p c = false := by
  intro l
  induction l with
  | nil => intro c h; simp [List.dropWhile] at h
  | cons a t ih =>
    intro c h
    by_cases hp : p a
    · rw [List.dropWhile_cons_of_pos hp] at h
      exact ih c h
    · rw [List.dropWhile_cons_of_neg hp, List.head?_cons] at h
      obtain rfl : a = c := by injection h
      simp only [Bool.not_eq_true] at hp
      exact hp

theorem head?_append_left {α : Type} (l l' : List α) (h : l ≠ []) :
    (l ++ l').head? = l.head? := by
  cases l with
  | nil => exact absurd rfl h
  | cons a t => simp

theorem jsTrimL_head_not_space (l : List Char) (c : Char)
    (h : (jsTrimL l).head? = some c) : isJsSpace c = false := by
  unfold jsTrimL at h
  have hne : ((l.dropWhile isJsSpace).reverse.dropWhile isJsSpace).reverse ≠ [] := by
    intro hnil
    rw [hnil] at h
    simp at h
  have hsplit : l.dropWhile isJsSpace =
      ((l.dropWhile isJsSpace).reverse.dropWhile isJsSpace).reverse ++
      ((l.dropWhile isJsSpace).reverse.takeWhile isJsSpace).reverse := by
    rw [← List.reverse_append, List.takeWhile_append_dropWhile, List.reverse_reverse]
  have hd : (l.dropWhile isJsSpace).head? = some c := by
    rw [hsplit, head?_append_left _ _ hne]
    exact h
  exact head?_dropWhile_false isJsSpace l c hd

theorem sentencesOf_shape (text : String) :
    ∀ s ∈ sentencesOf text, s ≠ [] ∧ ∀ c, s.head? = some c → isJsSpace c = false := by
  intro s hs
  unfold sentencesOf at hs
  rw [List.mem_filter] at hs
  obtain ⟨hmap, hne⟩ := hs
  rw [List.mem_map] at hmap
  obtain ⟨u, _, rfl⟩ := hmap
  refine ⟨?_, fun c hc => jsTrimL_head_not_space u c hc⟩
  intro hnil
  rw [hnil] at hne
  simp at hne

theorem mkCur_ne_nil : ∀ (g : List (List Char)), g ≠ [] → (∀ s ∈ g, s ≠ []) →
    mkCur g ≠ [] := by
  intro g
  match g with
  | [] => intro h _; exact absurd rfl h
  | [s] => intro _ hm; simpa [mkCur] using hm s (by simp)
  | s :: t :: rest => intro _ _; simp [mkCur]

theorem mkCur_append_single : ∀ (g : List (List Char)) (t : List Char), g ≠ [] →
    mkCur (g ++ [t]) = mkCur g ++ ['.', ' '] ++ t := by
  intro g
  induction g with
  | nil => intro t h; exact absurd rfl h
  | cons s rest ih =>
    intro t _
    match rest with
    | [] => simp [mkCur]
    | r :: rs =>
      have h1 := ih t (by simp)
      simp only [List.cons_append, mkCur]
      simpa [List.append_assoc] using h1

theorem mkCur_head? : ∀ (s : List Char) (rest : List (List Char)), s ≠ [] →
    (mkCur (s :: rest)).head? = s.head? := by
  intro s rest hs
  match rest with
  | [] => rfl
  | r :: rs =>
    cases s with
    | nil => exact absurd rfl hs
    | cons a as => simp [mkCur]

theorem chunkLoop_eq_chunkLoopT (size : Nat) :
    ∀ (segs : List (List Char)) (cur : List Char),
      chunkLoop size segs cur =
        chunkLoopT size ((segs.map jsTrimL).filter fun t => !t.isEmpty) cur := by
  intro segs
  induction segs with
  | nil => intro cur; rfl
  | cons s ss ih =>
    intro cur
    by_cases ht : jsTrimL s = []
    · simp [chunkLoop, ht, ih cur, List.filter_cons]
    · have hne : (jsTrimL s).isEmpty = false := by
        cases h2 : jsTrimL s with
        | nil => exact absurd h2 ht
        | cons a t2 => rfl
      have hstepL : chunkLoop size (s :: ss) cur =
          if cur.length + (jsTrimL s).length + 1 ≤ size then
            chunkLoop size ss (cur ++ (if cur = [] then [] else ['.', ' ']) ++ jsTrimL s)
          else if cur = [] then chunkLoop size ss (jsTrimL s)
          else (cur ++ ['.']) :: chunkLoop size ss (jsTrimL s) := by
        simp [chunkLoop, ht]
      have hfilter : ((s :: ss).map jsTrimL).filter (fun t => !t.isEmpty) =
          jsTrimL s :: (ss.map jsTrimL).filter (fun t => !t.isEmpty) := by
        simp [List.filter_cons, hne]
      rw [hstepL, hfilter]
      have hstepT : chunkLoopT size
          (jsTrimL s :: (ss.map jsTrimL).filter (fun t => !t.isEmpty)) cur =
          if cur.length + (jsTrimL s).length + 1 ≤ size then
            chunkLoopT size ((ss.map jsTrimL).filter fun t => !t.isEmpty)
              (cur ++ (if cur = [] then [] else ['.', ' ']) ++ jsTrimL s)
          else if cur = [] then
            chunkLoopT size ((ss.map jsTrimL).filter fun t => !t.isEmpty) (jsTrimL s)
          else (cur ++ ['.']) ::
            chunkLoopT size ((ss.map jsTrimL).filter fun t => !t.isEmpty) (jsTrimL s) := rfl
      rw [hstepT]
      split
      · exact ih _
      · split
        · exact ih _
        · rw [ih _]

theorem chunkLoopT_grouping (size : Nat) :
    ∀ (sents : List (List Char)) (g₀ : List (List Char)),
      (∀ s ∈ sents, s ≠ []) → (∀ s ∈ g₀, s ≠ []) →
      (2 ≤ g₀.length → (mkCur g₀).length ≤ size + 1) →
      ∃ groups : List (List (List Char)),
        (∀ g ∈ groups, g ≠ [] ∧ (∀ s ∈ g, s ≠ []) ∧
          (2 ≤ g.length → (mkChunk g).length ≤ size + 2)) ∧
        groups.flatten = g₀ ++ sents ∧
        chunkLoopT size sents (mkCur g₀) = groups.map mkChunk := by
  intro sents
  induction sents with
  | nil =>
    intro g₀ _ hg hbound
    by_cases hg0 : g₀ = []
    · subst hg0
      exact ⟨[], by simp, by simp, by simp [chunkLoopT, mkCur]⟩
    · refine ⟨[g₀], ?_, by simp, ?_⟩
      · intro g hgmem
        rw [List.mem_singleton] at hgmem
        subst hgmem
        refine ⟨hg0, hg, fun h2 => ?_⟩
        have := hbound h2
        simp only [mkChunk, List.length_append, List.length_singleton]
        omega
      · have hne : mkCur g₀ ≠ [] := mkCur_ne_nil g₀ hg0 hg
        simp [chunkLoopT, hne, mkChunk]
  | cons t ss ih =>
    intro g₀ hs hg hbound
    have ht : t ≠ [] := hs t (by simp)
    have hs' : ∀ s ∈ ss, s ≠ [] := fun s h => hs s (by simp [h])
    have hsingle : ∀ s ∈ [t], s ≠ [] := by
      intro s h
      rw [List.mem_singleton] at h
      subst h
      exact ht
    have hsbound : 2 ≤ ([t] : List (List Char)).length →
        (mkCur [t]).length ≤ size + 1 := by
      intro h
      simp only [List.length_singleton] at h
      omega
    by_cases hg0 : g₀ = []
    · subst hg0
      obtain ⟨groups, hprops, hjoin, heq⟩ := ih [t] hs' hsingle hsbound
      refine ⟨groups, hprops, by simpa using hjoin, ?_⟩
      have heq' : chunkLoopT size ss t = groups.map mkChunk := heq
      simp only [chunkLoopT, mkCur, List.length_nil, List.nil_append]
      by_cases hfit : 0 + t.length + 1 ≤ size
      · simpa [hfit] using heq'
      · simpa [hfit] using heq'
    · have hcurne : mkCur g₀ ≠ [] := mkCur_ne_nil g₀ hg0 hg
      by_cases hfit : (mkCur g₀).length + t.length + 1 ≤ size
      · have happ : mkCur (g₀ ++ [t]) = mkCur g₀ ++ ['.', ' '] ++ t :=
          mkCur_append_single g₀ t hg0
        obtain ⟨groups, hprops, hjoin, heq⟩ := ih (g₀ ++ [t]) hs'
          (by
            intro s h
            rcases List.mem_append.mp h with h1 | h1
            · exact hg s h1
            · rw [List.mem_singleton] at h1
              subst h1
              exact ht)
          (by
            intro _
            rw [happ]
            simp only [List.length_append, List.length_cons, List.length_nil]
            omega)
        refine ⟨groups, hprops, by simpa [List.append_assoc] using hjoin, ?_⟩
        have hstep : chunkLoopT size (t :: ss) (mkCur g₀) =
            chunkLoopT size ss (mkCur g₀ ++ ['.', ' '] ++ t) := by
          simp [chunkLoopT, hfit, hcurne]
        rw [hstep, ← happ, heq]
      · obtain ⟨groups, hprops, hjoin, heq⟩ := ih [t] hs' hsingle hsbound
        refine ⟨g₀ :: groups, ?_, ?_, ?_⟩
        · intro g hgm
          rcases List.mem_cons.mp hgm with rfl | hgm
          · refine ⟨hg0, hg, fun h2 => ?_⟩
            have := hbound h2
            simp only [mkChunk, List.length_append, List.length_singleton]
            omega
          · exact hprops g hgm
        · simp [hjoin]
        · have heq' : chunkLoopT size ss t = groups.map mkChunk := heq
          have hstep : chunkLoopT size (t :: ss) (mkCur g₀) =
              (mkCur g₀ ++ ['.']) :: chunkLoopT size ss t := by
            simp [chunkLoopT, hfit, hcurne]
          rw [hstep, heq']
          simp [mkChunk]

/-- The master description of `splitIntoChunks`: its output is a list of
groups of consecutive sentences, each flushed as `sentences joined with
". " plus a trailing period`, the groups partitioning `sentencesOf text` in
order, and every group of two or more sentences fitting in `size + 2`
characters. -/
theorem splitIntoChunks_eq_groups (text : String) (size : Nat) :
    ∃ groups : List (List (List Char)),
      (∀ g ∈ groups, g ≠ [] ∧ (∀ s ∈ g, s ∈ sentencesOf text) ∧
        (2 ≤ g.length → (mkChunk g).length ≤ size + 2)) ∧
      groups.flatten = sentencesOf text ∧
      splitIntoChunks text size = groups.map fun g => (⟨mkChunk g⟩ : String) := by
  obtain ⟨groups, hprops, hjoin, heq⟩ := chunkLoopT_grouping size (sentencesOf text) []
    (fun s hs => (sentencesOf_shape text s hs).1)
    (by intro s h; simp at h)
    (by intro h; simp at h)
  have hjoin' : groups.flatten = sentencesOf text := by simpa using hjoin
  refine ⟨groups, ?_, hjoin', ?_⟩
  · intro g hgmem
    obtain ⟨h1, _, h3⟩ := hprops g hgmem
    refine ⟨h1, ?_, h3⟩
    intro s hsg
    have : s ∈ groups.flatten := List.mem_flatten.mpr ⟨g, hgmem, hsg⟩
    rwa [hjoin'] at this
  · have heq' : chunkLoopT size (sentencesOf text) [] = groups.map mkChunk := heq
    unfold splitIntoChunks splitIntoChunksL
    rw [chunkLoop_eq_chunkLoopT]
    have hsent : (((splitSent (preprocessL text.data)).map jsTrimL).filter
        fun t => !t.isEmpty) = sentencesOf text := rfl
    rw [hsent, heq', List.map_map]
    rfl

/-! ## C3: chunk concatenation reconstructs the sentence sequence -/

/-- Claim C3: for every text and `maxSize > 0`, the chunks partition the
sentence sequence of the normalized text: there is a grouping of
`sentencesOf text` (the non-empty trimmed segments of `preprocessText text`
split on `[.!?]+`) into consecutive non-empty groups whose in-order
concatenation is exactly that sentence sequence — no segment dropped or
duplicated — such that each chunk is its group joined with `". "` plus the
synthetic trailing period (so stripping the synthetic periods recovers the
normalized, delimiter-collapsed text). -/
theorem splitIntoChunks_reconstructs (text : String) (size : Nat) (hsize : 0 < size) :
    ∃ groups : List (List (List Char)),
      (∀ g ∈ groups, g ≠ []) ∧
      groups.flatten = sentencesOf text ∧
      splitIntoChunks text size = groups.map fun g => (⟨mkChunk g⟩ : String) := by
  obtain ⟨groups, hprops, hjoin, heq⟩ := splitIntoChunks_eq_groups text size
  exact ⟨groups, fun g hg => (hprops g hg).1, hjoin, heq⟩

/-- Witness for C3 on the spec's own example. -/
theorem splitIntoChunks_reconstructs_witness :
    0 < 15 ∧
    ∃ groups : List (List (List Char)),
      (∀ g ∈ groups, g ≠ []) ∧
      groups.flatten = sentencesOf "Hello world. This is great!" ∧
      splitIntoChunks "Hello world. This is great!" 15 =
        groups.map fun g => (⟨mkChunk g⟩ : String) :=
  ⟨by decide, splitIntoChunks_reconstructs "Hello world. This is great!" 15 (by decide)⟩

/-! ## C1: the chunk size bound (corrected) -/

/-- Counterexample to claim C1 as stated: with `maxSize = 10` and the text
`"abcd. efghi."` (sentences of lengths 4 and 5, none exceeding 10), the
chunker produces the single chunk `"abcd. efghi."` of length 12 > 10, which
is not a single oversized sentence.  The loop tests
`cur.length + s.length + 1 ≤ size` but then joins with the two-character
separator `". "` and appends a final `'.'`, so a multi-sentence chunk can
exceed `maxSize` by two. -/
theorem chunk_size_claim_false :
    ¬ (∀ c ∈ splitIntoChunks "abcd. efghi." 10, c.length ≤ 10 ∨
        ∃ s ∈ sentencesOf "abcd. efghi.", 10 < s.length ∧ c.data = s ++ ['.']) := by
  decide

/-- Claim C1 as amended: for every text and `maxSize > 0`, every chunk
produced by `splitIntoChunks` has length at most `maxSize + 2`, except that
a chunk may consist of a single sentence plus the appended period (its
length then being the sentence's length plus one) — in particular a chunk
can exceed `maxSize + 2` only when a single sentence alone has length
exceeding `maxSize + 1`, and that sentence forms exactly one oversized
chunk. -/
theorem splitIntoChunks_size_bound (text : String) (size : Nat) (hsize : 0 < size) :
    ∀ c ∈ splitIntoChunks text size,
      c.length ≤ size + 2 ∨
      ∃ s ∈ sentencesOf text, c.data = s ++ ['.'] ∧ c.length = s.length + 1 := by
  obtain ⟨groups, hprops, hjoin, heq⟩ := splitIntoChunks_eq_groups text size
  intro c hc
  rw [heq, List.mem_map] at hc
  obtain ⟨g, hgmem, rfl⟩ := hc
  obtain ⟨hgne, hsent, hbound⟩ := hprops g hgmem
  cases g with
  | nil => exact absurd rfl hgne
  | cons s g' =>
    cases g' with
    | nil =>
      right
      refine ⟨s, hsent s (by simp), rfl, ?_⟩
      show (mkChunk [s]).length = s.length + 1
      simp [mkChunk, mkCur]
    | cons t rest =>
      left
      have h2 := hbound (by simp only [List.length_cons]; omega)
      show (mkChunk (s :: t :: rest)).length ≤ size + 2
      exact h2

/-- Witness for C1's amended claim on the spec's example: the chunk
`"Hello world."` obeys the bound. -/
theorem splitIntoChunks_size_bound_witness :
    0 < 15 ∧
    (("Hello world." : String).length ≤ 15 + 2 ∨
      ∃ s ∈ sentencesOf "Hello world. This is great!",
        ("Hello world." : String).data = s ++ ['.'] ∧
        ("Hello world." : String).length = s.length + 1) :=
  ⟨by decide, splitIntoChunks_size_bound "Hello world. This is great!" 15 (by decide)
    "Hello world." (by decide)⟩

/-! ## C10: shape of every chunk -/

/-- Claim C10: for every text and `maxSize > 0`, every chunk returned by
`splitIntoChunks` is non-empty, ends with the character `'.'` (so it has no
trailing whitespace), and starts with a non-whitespace character (no
leading whitespace). -/
theorem splitIntoChunks_chunk_shape (text : String) (size : Nat) (hsize : 0 < size) :
    ∀ c ∈ splitIntoChunks text size,
      c.data ≠ [] ∧ c.data.getLast? = some '.' ∧
      ∀ hd, c.data.head? = some hd → isJsSpace hd = false := by
  obtain ⟨groups, hprops, hjoin, heq⟩ := splitIntoChunks_eq_groups text size
  intro c hc
  rw [heq, List.mem_map] at hc
  obtain ⟨g, hgmem, rfl⟩ := hc
  obtain ⟨hgne, hsent, _⟩ := hprops g hgmem
  refine ⟨?_, ?_, ?_⟩
  · show mkChunk g ≠ []
    simp [mkChunk]
  · show (mkChunk g).getLast? = some '.'
    simp [mkChunk]
  · intro hd hhd
    cases g with
    | nil => exact absurd rfl hgne
    | cons s g' =>
      have hall : ∀ u ∈ s :: g', u ≠ [] :=
        fun u hu => (sentencesOf_shape text u (hsent u hu)).1
      obtain ⟨hsne, hshead⟩ := sentencesOf_shape text s (hsent s (by simp))
      have hh : (mkChunk (s :: g')).head? = s.head? := by
        rw [mkChunk, head?_append_left _ _ (mkCur_ne_nil _ (by simp) hall)]
        exact mkCur_head? s g' hsne
      have hhd' : s.head? = some hd := by
        rw [← hh]
        exact hhd
      exact hshead hd hhd'

/-- Witness for C10 on the spec's example chunk `"Hello world."`. -/
theorem splitIntoChunks_chunk_shape_witness :
    0 < 15 ∧ ("Hello world." : String).data ≠ [] ∧
    ("Hello world." : String).data.getLast? = some '.' ∧
    isJsSpace 'H' = false := by
  have h := splitIntoChunks_chunk_shape "Hello world. This is great!" 15 (by decide)
    "Hello world." (by decide)
  exact ⟨by decide, h.1, h.2.1, h.2.2 'H' (by decide)⟩

/-! ## C2: idempotence of `preprocessText` — character-class facts -/

theorem punct_not_space (c : Char) (h : isPunct c = true) : isJsSpace c = false := by
  simp only [isPunct, Bool.or_eq_true, beq_iff_eq] at h
  rcases h with ((rfl | rfl) | rfl) | rfl <;> decide

theorem punct_not_upper (c : Char) (h : isPunct c = true) : isUpperAZ c = false := by
  simp only [isPunct, Bool.or_eq_true, beq_iff_eq] at h
  rcases h with ((rfl | rfl) | rfl) | rfl <;> decide

theorem punct_not_lower (c : Char) (h : isPunct c = true) : isLowerAZ c = false := by
  simp only [isPunct, Bool.or_eq_true, beq_iff_eq] at h
  rcases h with ((rfl | rfl) | rfl) | rfl <;> decide

theorem space_not_punct (c : Char) (h : isJsSpace c = true) : isPunct c = false := by
  by_cases hp : isPunct c = true
  · rw [punct_not_space c hp] at h
    simp at h
  · exact Bool.eq_false_iff.mpr hp

theorem upperAZ_not_lowerAZ (c : Char) (h : isUpperAZ c = true) : isLowerAZ c = false := by
  simp only [isUpperAZ, Bool.and_eq_true, decide_eq_true_eq] at h
  have hna : ¬ ('a' ≤ c) := fun ha => absurd (le_trans ha h.2) (by decide)
  simp [isLowerAZ, hna]

theorem isJsSpace_blank : isJsSpace ' ' = true := by decide

theorem isPunct_blank : isPunct ' ' = false := by decide

theorem blank_not_lower : isLowerAZ ' ' = false := by decide

theorem blank_not_upper : isUpperAZ ' ' = false := by decide

/-! ### Structural facts about `addWsAfterPunct` and `insAfterPunct` -/

theorem addWs_head? : ∀ l : List Char, (addWsAfterPunct l).head? = l.head? := by
  intro l
  match l with
  | [] => rfl
  | [c] => rfl
  | c1 :: c2 :: rest =>
    simp only [addWsAfterPunct]
    split <;> rfl

theorem addWs_cons_ex (c : Char) (l : List Char) :
    ∃ w, addWsAfterPunct (c :: l) = c :: w := by
  match l with
  | [] => exact ⟨[], rfl⟩
  | d :: t =>
    simp only [addWsAfterPunct]
    split
    · exact ⟨_, rfl⟩
    · exact ⟨_, rfl⟩

theorem ins_cons_ex (c : Char) (l : List Char) :
    ∃ w, insAfterPunct (c :: l) = c :: w := by
  match l with
  | [] => exact ⟨[], rfl⟩
  | d :: t =>
    simp only [insAfterPunct]
    split
    · split
      · exact ⟨_, rfl⟩
      · exact ⟨_, rfl⟩
    · exact ⟨_, rfl⟩

theorem addWs_cons_of_not_punct (c : Char) (l : List Char) (h : isPunct c = false) :
    addWsAfterPunct (c :: l) = c :: addWsAfterPunct l := by
  match l with
  | [] => rfl
  | d :: t => simp [addWsAfterPunct, h]

theorem addWs_cons_of_space_snd (c1 x : Char) (l : List Char) (h : isJsSpace x = true) :
    addWsAfterPunct (c1 :: x :: l) = c1 :: addWsAfterPunct (x :: l) := by
  simp [addWsAfterPunct, h]

theorem addWs_eq_nil_iff : ∀ l : List Char, addWsAfterPunct l = [] ↔ l = [] := by
  intro l
  match l with
  | [] => simp [addWsAfterPunct]
  | [c] => simp [addWsAfterPunct]
  | c1 :: c2 :: rest =>
    simp only [addWsAfterPunct]
    split <;> simp

theorem getLast?_cons_ne {α : Type} (a : α) (l : List α) (h : l ≠ []) :
    (a :: l).getLast? = l.getLast? := by
  cases l with
  | nil => exact absurd rfl h
  | cons b t => exact List.getLast?_cons_cons

theorem addWs_getLast? : ∀ l : List Char, (addWsAfterPunct l).getLast? = l.getLast? := by
  intro l
  induction l using addWsAfterPunct.induct with
  | case1 => rfl
  | case2 c => rfl
  | case3 c1 c2 rest h ih =>
    rw [show addWsAfterPunct (c1 :: c2 :: rest) =
      c1 :: ' ' :: c2 :: addWsAfterPunct rest from by simp [addWsAfterPunct, h]]
    by_cases hr : rest = []
    · subst hr
      simp [addWsAfterPunct, List.getLast?_cons_cons]
    · have h1 : addWsAfterPunct rest ≠ [] :=
        fun hh => hr ((addWs_eq_nil_iff rest).mp hh)
      rw [getLast?_cons_ne _ _ (by simp), getLast?_cons_ne _ _ (by simp),
        getLast?_cons_ne _ _ h1, ih]
      rw [getLast?_cons_ne c1 (c2 :: rest) (by simp), getLast?_cons_ne c2 rest hr]
  | case4 c1 c2 rest h ih =>
    rw [show addWsAfterPunct (c1 :: c2 :: rest) =
      c1 :: addWsAfterPunct (c2 :: rest) from by simp [addWsAfterPunct, h]]
    have h1 : addWsAfterPunct (c2 :: rest) ≠ [] := by simp [addWs_eq_nil_iff]
    rw [getLast?_cons_ne _ _ h1, ih]
    exact (getLast?_cons_ne c1 (c2 :: rest) (by simp)).symm

/-! ### `delWsBeforePunct` undoes exactly the pair-internal insertions -/

theorem delWs_addWs : ∀ v : List Char, List.Chain' spacePairOk v →
    delWsAux [] (addWsAfterPunct v) = insAfterPunct v := by
  intro v
  induction v using addWsAfterPunct.induct with
  | case1 => intro _; rfl
  | case2 c =>
    intro _
    by_cases hc : isJsSpace c = true
    · simp [addWsAfterPunct, insAfterPunct, delWsAux, hc]
    · simp [addWsAfterPunct, insAfterPunct, delWsAux,
        Bool.eq_false_iff.mpr hc]
  | case3 c1 c2 rest h ih =>
    intro hv
    have h' := h
    rw [Bool.and_eq_true, Bool.not_eq_true'] at h'
    obtain ⟨hp1, hs2⟩ := h'
    have hns1 : isJsSpace c1 = false := punct_not_space c1 hp1
    have ihh := ih (hv.tail.tail)
    rw [show addWsAfterPunct (c1 :: c2 :: rest) =
      c1 :: ' ' :: c2 :: addWsAfterPunct rest from by simp [addWsAfterPunct, h]]
    by_cases hp2 : isPunct c2 = true
    · rw [show insAfterPunct (c1 :: c2 :: rest) =
        c1 :: c2 :: insAfterPunct rest from by simp [insAfterPunct, h, hp2]]
      simp [delWsAux, hns1, hp1, hs2, hp2, isJsSpace_blank, ihh]
    · have hp2' : isPunct c2 = false := Bool.eq_false_iff.mpr hp2
      rw [show insAfterPunct (c1 :: c2 :: rest) =
        c1 :: ' ' :: c2 :: insAfterPunct rest from by simp [insAfterPunct, h, hp2']]
      simp [delWsAux, hns1, hp1, hs2, hp2', isJsSpace_blank, ihh]
  | case4 c1 c2 rest h ih =>
    intro hv
    have hstep : addWsAfterPunct (c1 :: c2 :: rest) =
        c1 :: addWsAfterPunct (c2 :: rest) := by simp [addWsAfterPunct, h]
    have hstep2 : insAfterPunct (c1 :: c2 :: rest) =
        c1 :: insAfterPunct (c2 :: rest) := by simp [insAfterPunct, h]
    rw [hstep, hstep2]
    have ihh := ih hv.tail
    by_cases hs1 : isJsSpace c1 = true
    · have h2 := (List.chain'_cons'.mp hv).1 c2 rfl hs1
      obtain ⟨hs2, hp2⟩ := h2
      obtain ⟨Y, hY⟩ := addWs_cons_ex c2 rest
      rw [hY] at ihh ⊢
      have hd : delWsAux [] (c2 :: Y) = c2 :: delWsAux [] Y := by
        simp [delWsAux, hs2, hp2]
      rw [show delWsAux [] (c1 :: c2 :: Y) = c1 :: c2 :: delWsAux [] Y from by
        simp [delWsAux, hs1, hs2, hp2]]
      rw [hd] at ihh
      rw [← ihh]
    · have hs1' : isJsSpace c1 = false := Bool.eq_false_iff.mpr hs1
      by_cases hp1 : isPunct c1 = true
      · rw [show delWsAux [] (c1 :: addWsAfterPunct (c2 :: rest)) =
          c1 :: delWsAux [] (addWsAfterPunct (c2 :: rest)) from by
            simp [delWsAux, hs1', hp1], ihh]
      · rw [show delWsAux [] (c1 :: addWsAfterPunct (c2 :: rest)) =
          c1 :: delWsAux [] (addWsAfterPunct (c2 :: rest)) from by
            simp [delWsAux, hs1', Bool.eq_false_iff.mpr hp1], ihh]

/-! ### `addWsAfterPunct` is unchanged by the surviving insertions -/

theorem addWs_ins : ∀ v : List Char,
    addWsAfterPunct (insAfterPunct v) = addWsAfterPunct v := by
  intro v
  induction v using insAfterPunct.induct with
  | case1 => rfl
  | case2 c => rfl
  | case3 c1 c2 rest h hp2 ih =>
    rw [show insAfterPunct (c1 :: c2 :: rest) =
      c1 :: c2 :: insAfterPunct rest from by simp [insAfterPunct, h, hp2]]
    rw [show addWsAfterPunct (c1 :: c2 :: insAfterPunct rest) =
      c1 :: ' ' :: c2 :: addWsAfterPunct (insAfterPunct rest) from by
        simp [addWsAfterPunct, h]]
    rw [show addWsAfterPunct (c1 :: c2 :: rest) =
      c1 :: ' ' :: c2 :: addWsAfterPunct rest from by simp [addWsAfterPunct, h]]
    rw [ih]
  | case4 c1 c2 rest h hp2 ih =>
    have h' := h
    rw [Bool.and_eq_true, Bool.not_eq_true'] at h'
    obtain ⟨hp1, hs2⟩ := h'
    have hp2' : isPunct c2 = false := Bool.eq_false_iff.mpr hp2
    rw [show insAfterPunct (c1 :: c2 :: rest) =
      c1 :: ' ' :: c2 :: insAfterPunct rest from by simp [insAfterPunct, h, hp2']]
    rw [addWs_cons_of_space_snd c1 ' ' _ isJsSpace_blank,
      addWs_cons_of_not_punct ' ' _ isPunct_blank,
      addWs_cons_of_not_punct c2 _ hp2', ih]
    rw [show addWsAfterPunct (c1 :: c2 :: rest) =
      c1 :: ' ' :: c2 :: addWsAfterPunct rest from by simp [addWsAfterPunct, h]]
  | case5 c1 c2 rest h ih =>
    rw [show insAfterPunct (c1 :: c2 :: rest) =
      c1 :: insAfterPunct (c2 :: rest) from by simp [insAfterPunct, h]]
    obtain ⟨W, hW⟩ := ins_cons_ex c2 rest
    rw [hW]
    rw [show addWsAfterPunct (c1 :: c2 :: W) =
      c1 :: addWsAfterPunct (c2 :: W) from by simp [addWsAfterPunct, h]]
    rw [← hW, ih]
    rw [show addWsAfterPunct (c1 :: c2 :: rest) =
      c1 :: addWsAfterPunct (c2 :: rest) from by simp [addWsAfterPunct, h]]

/-! ### Invariants preserved by `addWsAfterPunct` -/

theorem allBlank_tail (c : Char) (l : List Char) (h : allBlank (c :: l)) :
    allBlank l :=
  fun x hx hs => h x (List.mem_cons_of_mem c hx) hs

theorem addWs_allBlank : ∀ v : List Char, allBlank v →
    allBlank (addWsAfterPunct v) := by
  intro v
  induction v using addWsAfterPunct.induct with
  | case1 => intro hb; exact hb
  | case2 c => intro hb; exact hb
  | case3 c1 c2 rest h ih =>
    intro hb
    rw [show addWsAfterPunct (c1 :: c2 :: rest) =
      c1 :: ' ' :: c2 :: addWsAfterPunct rest from by simp [addWsAfterPunct, h]]
    intro c hc hs
    simp only [List.mem_cons] at hc
    rcases hc with rfl | rfl | rfl | hc
    · exact hb c (by simp) hs
    · rfl
    · exact hb c (by simp) hs
    · exact ih (allBlank_tail _ _ (allBlank_tail _ _ hb)) c hc hs
  | case4 c1 c2 rest h ih =>
    intro hb
    rw [show addWsAfterPunct (c1 :: c2 :: rest) =
      c1 :: addWsAfterPunct (c2 :: rest) from by simp [addWsAfterPunct, h]]
    intro c hc hs
    simp only [List.mem_cons] at hc
    rcases hc with rfl | hc
    · exact hb c (by simp) hs
    · exact ih (allBlank_tail _ _ hb) c hc hs

theorem addWs_chain_noDouble : ∀ v : List Char, List.Chain' spacePairOk v →
    List.Chain' noDoubleSpacePair (addWsAfterPunct v) := by
  intro v
  induction v using addWsAfterPunct.induct with
  | case1 => intro _; simp [addWsAfterPunct]
  | case2 c => intro _; simp [addWsAfterPunct]
  | case3 c1 c2 rest h ih =>
    intro hv
    have h' := h
    rw [Bool.and_eq_true, Bool.not_eq_true'] at h'
    obtain ⟨hp1, hs2⟩ := h'
    have hns1 : isJsSpace c1 = false := punct_not_space c1 hp1
    rw [show addWsAfterPunct (c1 :: c2 :: rest) =
      c1 :: ' ' :: c2 :: addWsAfterPunct rest from by simp [addWsAfterPunct, h]]
    refine List.chain'_cons'.mpr ⟨?_, List.chain'_cons'.mpr
      ⟨?_, List.chain'_cons'.mpr ⟨?_, ih (hv.tail.tail)⟩⟩⟩
    · intro y hy
      rintro ⟨ha, _⟩
      rw [hns1] at ha
      simp at ha
    · intro y hy
      simp only [List.head?_cons, Option.mem_def, Option.some.injEq] at hy
      subst hy
      rintro ⟨_, hb2⟩
      rw [hs2] at hb2
      simp at hb2
    · intro y _
      rintro ⟨ha, _⟩
      rw [hs2] at ha
      simp at ha
  | case4 c1 c2 rest h ih =>
    intro hv
    rw [show addWsAfterPunct (c1 :: c2 :: rest) =
      c1 :: addWsAfterPunct (c2 :: rest) from by simp [addWsAfterPunct, h]]
    refine List.chain'_cons'.mpr ⟨?_, ih hv.tail⟩
    intro y hy
    rw [addWs_head?] at hy
    simp only [List.head?_cons, Option.mem_def, Option.some.injEq] at hy
    subst hy
    rintro ⟨ha1, ha2⟩
    have := ((List.chain'_cons'.mp hv).1 c2 rfl ha1).1
    rw [this] at ha2
    simp at ha2

theorem addWs_chain_noCamel : ∀ v : List Char, List.Chain' noCamelPair v →
    List.Chain' noCamelPair (addWsAfterPunct v) := by
  intro v
  induction v using addWsAfterPunct.induct with
  | case1 => intro _; simp [addWsAfterPunct]
  | case2 c => intro _; simp [addWsAfterPunct]
  | case3 c1 c2 rest h ih =>
    intro hv
    rw [show addWsAfterPunct (c1 :: c2 :: rest) =
      c1 :: ' ' :: c2 :: addWsAfterPunct rest from by simp [addWsAfterPunct, h]]
    refine List.chain'_cons'.mpr ⟨?_, List.chain'_cons'.mpr
      ⟨?_, List.chain'_cons'.mpr ⟨?_, ih (hv.tail.tail)⟩⟩⟩
    · intro y hy
      simp only [List.head?_cons, Option.mem_def, Option.some.injEq] at hy
      subst hy
      rintro ⟨_, hu⟩
      rw [blank_not_upper] at hu
      simp at hu
    · intro y _
      rintro ⟨hlo, _⟩
      rw [blank_not_lower] at hlo
      simp at hlo
    · intro y hy
      rw [addWs_head?] at hy
      exact (List.chain'_cons'.mp hv.tail).1 y hy
  | case4 c1 c2 rest h ih =>
    intro hv
    rw [show addWsAfterPunct (c1 :: c2 :: rest) =
      c1 :: addWsAfterPunct (c2 :: rest) from by simp [addWsAfterPunct, h]]
    refine List.chain'_cons'.mpr ⟨?_, ih hv.tail⟩
    intro y hy
    rw [addWs_head?] at hy
    exact (List.chain'_cons'.mp hv).1 y hy

/-! ### Structure of `addCamelSpace` and `collapseWs` outputs -/

theorem addCamelSpace_head? : ∀ l : List Char,
    (addCamelSpace l).head? = l.head? := by
  intro l
  match l with
  | [] => rfl
  | [c] => rfl
  | c1 :: c2 :: rest =>
    simp only [addCamelSpace]
    split <;> rfl

theorem addCamelSpace_noCamel : ∀ l : List Char,
    List.Chain' noCamelPair (addCamelSpace l) := by
  intro l
  induction l using addCamelSpace.induct with
  | case1 => simp [addCamelSpace]
  | case2 c => simp [addCamelSpace]
  | case3 c1 c2 rest h ih =>
    have h' := h
    rw [Bool.and_eq_true] at h'
    obtain ⟨hl1, hu2⟩ := h'
    rw [show addCamelSpace (c1 :: c2 :: rest) =
      c1 :: ' ' :: c2 :: addCamelSpace rest from by simp [addCamelSpace, h]]
    refine List.chain'_cons'.mpr ⟨?_, List.chain'_cons'.mpr
      ⟨?_, List.chain'_cons'.mpr ⟨?_, ih⟩⟩⟩
    · intro y hy
      simp only [List.head?_cons, Option.mem_def, Option.some.injEq] at hy
      subst hy
      rintro ⟨_, hu⟩
      rw [blank_not_upper] at hu
      simp at hu
    · intro y _
      rintro ⟨hlo, _⟩
      rw [blank_not_lower] at hlo
      simp at hlo
    · intro y _
      rintro ⟨hlo, _⟩
      rw [upperAZ_not_lowerAZ c2 hu2] at hlo
      simp at hlo
  | case4 c1 c2 rest h ih =>
    rw [show addCamelSpace (c1 :: c2 :: rest) =
      c1 :: addCamelSpace (c2 :: rest) from by simp [addCamelSpace, h]]
    refine List.chain'_cons'.mpr ⟨?_, ih⟩
    intro y hy
    rw [addCamelSpace_head?] at hy
    simp only [List.head?_cons, Option.mem_def, Option.some.injEq] at hy
    subst hy
    rintro ⟨hlo, hu⟩
    exact h (by rw [hlo, hu]; rfl)

theorem addCamelSpace_id : ∀ l : List Char, List.Chain' noCamelPair l →
    addCamelSpace l = l := by
  intro l
  induction l using addCamelSpace.induct with
  | case1 => intro _; rfl
  | case2 c => intro _; rfl
  | case3 c1 c2 rest h ih =>
    intro hv
    have h' := h
    rw [Bool.and_eq_true] at h'
    exact absurd h' ((List.chain'_cons'.mp hv).1 c2 rfl)
  | case4 c1 c2 rest h ih =>
    intro hv
    rw [show addCamelSpace (c1 :: c2 :: rest) =
      c1 :: addCamelSpace (c2 :: rest) from by simp [addCamelSpace, h], ih hv.tail]

theorem collapseWs_head? : ∀ l : List Char,
    (collapseWs l).head? = l.head?.map fun c => if isJsSpace c then ' ' else c := by
  intro l
  induction l using collapseWs.induct with
  | case1 => rfl
  | case2 c hc => simp [collapseWs, hc]
  | case3 c hc => simp [collapseWs, hc]
  | case4 c1 c2 rest hs1 hs2 ih =>
    rw [show collapseWs (c1 :: c2 :: rest) = collapseWs (c2 :: rest) from by
      simp [collapseWs, hs1, hs2], ih]
    simp [hs1, hs2]
  | case5 c1 c2 rest hs1 hs2 ih =>
    rw [show collapseWs (c1 :: c2 :: rest) = ' ' :: collapseWs (c2 :: rest) from by
      simp [collapseWs, hs1, hs2]]
    simp [hs1]
  | case6 c1 c2 rest hs1 ih =>
    rw [show collapseWs (c1 :: c2 :: rest) = c1 :: collapseWs (c2 :: rest) from by
      simp [collapseWs, hs1]]
    simp [hs1]

theorem collapseWs_allBlank : ∀ l : List Char, allBlank (collapseWs l) := by
  intro l
  induction l using collapseWs.induct with
  | case1 => intro c hc _; simp [collapseWs] at hc
  | case2 c hc =>
    rw [show collapseWs [c] = [' '] from by simp [collapseWs, hc]]
    intro x hx _
    simpa using hx
  | case3 c hc =>
    rw [show collapseWs [c] = [c] from by simp [collapseWs, hc]]
    intro x hx hs
    simp only [List.mem_singleton] at hx
    subst hx
    exact absurd hs hc
  | case4 c1 c2 rest hs1 hs2 ih =>
    rw [show collapseWs (c1 :: c2 :: rest) = collapseWs (c2 :: rest) from by
      simp [collapseWs, hs1, hs2]]
    exact ih
  | case5 c1 c2 rest hs1 hs2 ih =>
    rw [show collapseWs (c1 :: c2 :: rest) = ' ' :: collapseWs (c2 :: rest) from by
      simp [collapseWs, hs1, hs2]]
    intro x hx hs
    simp only [List.mem_cons] at hx
    rcases hx with rfl | hx
    · rfl
    · exact ih x hx hs
  | case6 c1 c2 rest hs1 ih =>
    rw [show collapseWs (c1 :: c2 :: rest) = c1 :: collapseWs (c2 :: rest) from by
      simp [collapseWs, hs1]]
    intro x hx hs
    simp only [List.mem_cons] at hx
    rcases hx with rfl | hx
    · exact absurd hs hs1
    · exact ih x hx hs

theorem collapseWs_noDouble : ∀ l : List Char,
    List.Chain' noDoubleSpacePair (collapseWs l) := by
  intro l
  induction l using collapseWs.induct with
  | case1 => simp [collapseWs]
  | case2 c hc =>
    rw [show collapseWs [c] = [' '] from by simp [collapseWs, hc]]
    simp
  | case3 c hc =>
    rw [show collapseWs [c] = [c] from by simp [collapseWs, hc]]
    simp
  | case4 c1 c2 rest hs1 hs2 ih =>
    rw [show collapseWs (c1 :: c2 :: rest) = collapseWs (c2 :: rest) from by
      simp [collapseWs, hs1, hs2]]
    exact ih
  | case5 c1 c2 rest hs1 hs2 ih =>
    rw [show collapseWs (c1 :: c2 :: rest) = ' ' :: collapseWs (c2 :: rest) from by
      simp [collapseWs, hs1, hs2]]
    refine List.chain'_cons'.mpr ⟨?_, ih⟩
    intro y hy
    rw [collapseWs_head?] at hy
    simp only [List.head?_cons, Option.mem_def, Option.map_some'] at hy
    rintro ⟨_, hb2⟩
    rw [if_neg hs2] at hy
    injection hy with hy
    subst hy
    exact absurd hb2 hs2
  | case6 c1 c2 rest hs1 ih =>
    rw [show collapseWs (c1 :: c2 :: rest) = c1 :: collapseWs (c2 :: rest) from by
      simp [collapseWs, hs1]]
    refine List.chain'_cons'.mpr ⟨?_, ih⟩
    intro y _
    rintro ⟨hb1, _⟩
    exact absurd hb1 hs1

theorem collapseWs_noCamel : ∀ l : List Char, List.Chain' noCamelPair l →
    List.Chain' noCamelPair (collapseWs l) := by
  intro l
  induction l using collapseWs.induct with
  | case1 => intro _; simp [collapseWs]
  | case2 c hc =>
    intro _
    rw [show collapseWs [c] = [' '] from by simp [collapseWs, hc]]
    simp
  | case3 c hc =>
    intro _
    rw [show collapseWs [c] = [c] from by simp [collapseWs, hc]]
    simp
  | case4 c1 c2 rest hs1 hs2 ih =>
    intro hv
    rw [show collapseWs (c1 :: c2 :: rest) = collapseWs (c2 :: rest) from by
      simp [collapseWs, hs1, hs2]]
    exact ih hv.tail
  | case5 c1 c2 rest hs1 hs2 ih =>
    intro hv
    rw [show collapseWs (c1 :: c2 :: rest) = ' ' :: collapseWs (c2 :: rest) from by
      simp [collapseWs, hs1, hs2]]
    refine List.chain'_cons'.mpr ⟨?_, ih hv.tail⟩
    intro y _
    rintro ⟨hlo, _⟩
    rw [blank_not_lower] at hlo
    simp at hlo
  | case6 c1 c2 rest hs1 ih =>
    intro hv
    rw [show collapseWs (c1 :: c2 :: rest) = c1 :: collapseWs (c2 :: rest) from by
      simp [collapseWs, hs1]]
    refine List.chain'_cons'.mpr ⟨?_, ih hv.tail⟩
    intro y hy
    rw [collapseWs_head?] at hy
    simp only [List.head?_cons, Option.mem_def, Option.map_some'] at hy
    by_cases hs2 : isJsSpace c2 = true
    · rw [if_pos hs2] at hy
      injection hy with hy
      subst hy
      rintro ⟨_, hu⟩
      rw [blank_not_upper] at hu
      simp at hu
    · rw [if_neg hs2] at hy
      injection hy with hy
      subst hy
      exact (List.chain'_cons'.mp hv).1 c2 rfl

theorem collapseWs_id : ∀ l : List Char, allBlank l →
    List.Chain' noDoubleSpacePair l → collapseWs l = l := by
  intro l
  induction l using collapseWs.induct with
  | case1 => intro _ _; rfl
  | case2 c hc =>
    intro hb _
    rw [show collapseWs [c] = [' '] from by simp [collapseWs, hc],
      hb c (by simp) hc]
  | case3 c hc =>
    intro _ _
    simp [collapseWs, hc]
  | case4 c1 c2 rest hs1 hs2 ih =>
    intro _ hd
    exact absurd ⟨hs1, hs2⟩ ((List.chain'_cons'.mp hd).1 c2 rfl)
  | case5 c1 c2 rest hs1 hs2 ih =>
    intro hb hd
    rw [show collapseWs (c1 :: c2 :: rest) = ' ' :: collapseWs (c2 :: rest) from by
      simp [collapseWs, hs1, hs2],
      ih (allBlank_tail _ _ hb) hd.tail, hb c1 (by simp) hs1]
  | case6 c1 c2 rest hs1 ih =>
    intro hb hd
    rw [show collapseWs (c1 :: c2 :: rest) = c1 :: collapseWs (c2 :: rest) from by
      simp [collapseWs, hs1], ih (allBlank_tail _ _ hb) hd.tail]


/-! ### Invariants established by `delWsBeforePunct` -/

theorem delWs_main : ∀ (n : Nat) (l : List Char), l.length ≤ n →
    List.Chain' noDoubleSpacePair l → allBlank l →
    List.Chain' spacePairOk (delWsAux [] l) ∧
    allBlank (delWsAux [] l) ∧
    (List.Chain' noCamelPair l → List.Chain' noCamelPair (delWsAux [] l)) ∧
    (∀ c, (delWsAux [] l).head? = some c → l.head? = some c ∨ isPunct c = true) := by
  intro n
  induction n with
  | zero =>
    intro l hl _ _
    have hnil : l = [] := List.eq_nil_of_length_eq_zero (Nat.le_zero.mp hl)
    subst hnil
    exact ⟨by simp [delWsAux], by intro x hx _; simp [delWsAux] at hx,
      fun _ => by simp [delWsAux], fun c h => by simp [delWsAux] at h⟩
  | succ n ih =>
    intro l hl hd hb
    match l with
    | [] =>
      exact ⟨by simp [delWsAux], by intro x hx _; simp [delWsAux] at hx,
        fun _ => by simp [delWsAux], fun c h => by simp [delWsAux] at h⟩
    | c :: rest =>
      by_cases hsc : isJsSpace c = true
      · match rest with
        | [] =>
          rw [show delWsAux [] [c] = [c] from by simp [delWsAux, hsc]]
          refine ⟨by simp, ?_, fun _ => by simp, fun c0 h0 => Or.inl h0⟩
          intro x hx hs
          simp only [List.mem_singleton] at hx
          subst hx
          exact hb x (by simp) hs
        | d :: t =>
          have hnd : ¬ (isJsSpace c = true ∧ isJsSpace d = true) :=
            (List.chain'_cons'.mp hd).1 d rfl
          have hsd : isJsSpace d = false := by
            by_cases h2 : isJsSpace d = true
            · exact absurd ⟨hsc, h2⟩ hnd
            · exact Bool.eq_false_iff.mpr h2
          have hlt : t.length ≤ n := by
            simp only [List.length_cons] at hl
            omega
          have iht := ih t hlt (hd.tail.tail)
            (allBlank_tail _ _ (allBlank_tail _ _ hb))
          have hstep0 : delWsAux [] (c :: d :: t) = delWsAux [c] (d :: t) := by
            simp [delWsAux, hsc, hsd]
          by_cases hpd : isPunct d = true
          · have hstep : delWsAux [] (c :: d :: t) = d :: delWsAux [] t := by
              rw [hstep0]
              simp [delWsAux, hsd, hpd]
            rw [hstep]
            refine ⟨?_, ?_, ?_, ?_⟩
            · refine List.chain'_cons'.mpr ⟨?_, iht.1⟩
              intro y _ hsy
              rw [punct_not_space d hpd] at hsy
              simp at hsy
            · intro x hx hs
              simp only [List.mem_cons] at hx
              rcases hx with rfl | hx
              · rw [punct_not_space x hpd] at hs
                simp at hs
              · exact iht.2.1 x hx hs
            · intro hcam
              refine List.chain'_cons'.mpr ⟨?_, iht.2.2.1 (hcam.tail.tail)⟩
              intro y _
              rintro ⟨hlo, _⟩
              rw [punct_not_lower d hpd] at hlo
              simp at hlo
            · intro c0 h0
              simp only [List.head?_cons, Option.some.injEq] at h0
              subst h0
              right
              exact hpd
          · have hpd2 : isPunct d = false := Bool.eq_false_iff.mpr hpd
            have hstep : delWsAux [] (c :: d :: t) = c :: d :: delWsAux [] t := by
              rw [hstep0]
              simp [delWsAux, hsd, hpd2]
            rw [hstep]
            have hcblank : c = ' ' := hb c (by simp) hsc
            refine ⟨?_, ?_, ?_, ?_⟩
            · refine List.chain'_cons'.mpr ⟨?_, List.chain'_cons'.mpr ⟨?_, iht.1⟩⟩
              · intro y hy _
                simp only [List.head?_cons, Option.mem_def, Option.some.injEq] at hy
                subst hy
                exact ⟨hsd, hpd2⟩
              · intro y _ hsy
                rw [hsd] at hsy
                simp at hsy
            · intro x hx hs
              simp only [List.mem_cons] at hx
              rcases hx with rfl | rfl | hx
              · exact hb x (by simp) hs
              · rw [hsd] at hs
                simp at hs
              · exact iht.2.1 x hx hs
            · intro hcam
              refine List.chain'_cons'.mpr ⟨?_, List.chain'_cons'.mpr
                ⟨?_, iht.2.2.1 (hcam.tail.tail)⟩⟩
              · intro y _
                rintro ⟨hlo, _⟩
                rw [hcblank, blank_not_lower] at hlo
                simp at hlo
              · intro y hy
                rcases iht.2.2.2 y hy with hyt | hyp
                · exact (List.chain'_cons'.mp hcam.tail).1 y hyt
                · rintro ⟨_, hup⟩
                  rw [punct_not_upper y hyp] at hup
                  simp at hup
            · intro c0 h0
              exact Or.inl h0
      · have hsc2 : isJsSpace c = false := Bool.eq_false_iff.mpr hsc
        have hstep : delWsAux [] (c :: rest) = c :: delWsAux [] rest := by
          by_cases hpc : isPunct c = true
          · simp [delWsAux, hsc2, hpc]
          · simp [delWsAux, hsc2, Bool.eq_false_iff.mpr hpc]
        rw [hstep]
        have hlr : rest.length ≤ n := by
          simp only [List.length_cons] at hl
          omega
        have ihr := ih rest hlr hd.tail (allBlank_tail _ _ hb)
        refine ⟨?_, ?_, ?_, ?_⟩
        · refine List.chain'_cons'.mpr ⟨?_, ihr.1⟩
          intro y _ hsy
          rw [hsc2] at hsy
          simp at hsy
        · intro x hx hs
          simp only [List.mem_cons] at hx
          rcases hx with rfl | hx
          · exact absurd hs hsc
          · exact ihr.2.1 x hx hs
        · intro hcam
          refine List.chain'_cons'.mpr ⟨?_, ihr.2.2.1 hcam.tail⟩
          intro y hy
          rcases ihr.2.2.2 y hy with hyt | hyp
          · exact (List.chain'_cons'.mp hcam).1 y hyt
          · rintro ⟨_, hup⟩
            rw [punct_not_upper y hyp] at hup
            simp at hup
        · intro c0 h0
          exact Or.inl h0


/-! ### Commuting `addWsAfterPunct` with the final trim -/

theorem chain'_dropWhile {R : Char → Char → Prop} (p : Char → Bool) :
    ∀ l : List Char, List.Chain' R l → List.Chain' R (l.dropWhile p) := by
  intro l
  induction l with
  | nil => intro h; exact h
  | cons c t ih =>
    intro h
    by_cases hp : p c = true
    · rw [List.dropWhile_cons_of_pos hp]
      exact ih h.tail
    · rw [List.dropWhile_cons_of_neg hp]
      exact h

theorem dropWhile_addWs (v : List Char) (hv : List.Chain' noDoubleSpacePair v) :
    addWsAfterPunct (v.dropWhile isJsSpace) = (addWsAfterPunct v).dropWhile isJsSpace := by
  match v with
  | [] => rfl
  | c :: t =>
    by_cases hsc : isJsSpace c = true
    · rw [List.dropWhile_cons_of_pos hsc,
        addWs_cons_of_not_punct c t (space_not_punct c hsc),
        List.dropWhile_cons_of_pos hsc]
      match t with
      | [] => rfl
      | d :: t2 =>
        have hsd : isJsSpace d = false := by
          have hnd := (List.chain'_cons'.mp hv).1 d rfl
          by_cases h2 : isJsSpace d = true
          · exact absurd ⟨hsc, h2⟩ hnd
          · exact Bool.eq_false_iff.mpr h2
        rw [List.dropWhile_cons_of_neg (by simp [hsd])]
        obtain ⟨w, hw⟩ := addWs_cons_ex d t2
        rw [hw, List.dropWhile_cons_of_neg (by simp [hsd]), ← hw]
    · have hsc2 : isJsSpace c = false := Bool.eq_false_iff.mpr hsc
      rw [List.dropWhile_cons_of_neg (by simp [hsc2])]
      obtain ⟨w, hw⟩ := addWs_cons_ex c t
      rw [hw, List.dropWhile_cons_of_neg (by simp [hsc2]), ← hw]

theorem addWs_append_space (a : Char) (ha : isJsSpace a = true) :
    ∀ u : List Char, addWsAfterPunct (u ++ [a]) = addWsAfterPunct u ++ [a] := by
  intro u
  induction u using addWsAfterPunct.induct with
  | case1 => rfl
  | case2 c =>
    show addWsAfterPunct (c :: a :: []) = addWsAfterPunct [c] ++ [a]
    rw [addWs_cons_of_space_snd c a [] ha]
    rfl
  | case3 c1 c2 rest h ih =>
    simp only [List.cons_append]
    rw [show addWsAfterPunct (c1 :: c2 :: (rest ++ [a])) =
      c1 :: ' ' :: c2 :: addWsAfterPunct (rest ++ [a]) from by
        simp [addWsAfterPunct, h], ih]
    rw [show addWsAfterPunct (c1 :: c2 :: rest) =
      c1 :: ' ' :: c2 :: addWsAfterPunct rest from by simp [addWsAfterPunct, h]]
    simp
  | case4 c1 c2 rest h ih =>
    simp only [List.cons_append]
    rw [show addWsAfterPunct (c1 :: c2 :: (rest ++ [a])) =
      c1 :: addWsAfterPunct (c2 :: (rest ++ [a])) from by simp [addWsAfterPunct, h]]
    have ih2 := ih
    simp only [List.cons_append] at ih2
    rw [ih2]
    rw [show addWsAfterPunct (c1 :: c2 :: rest) =
      c1 :: addWsAfterPunct (c2 :: rest) from by simp [addWsAfterPunct, h]]
    simp

theorem dropTrail_id (l : List Char)
    (h : ∀ a, l.getLast? = some a → isJsSpace a = false) :
    (l.reverse.dropWhile isJsSpace).reverse = l := by
  match hr : l.reverse with
  | [] =>
    simp only [List.dropWhile_nil, List.reverse_nil]
    rw [← List.reverse_reverse l, hr]
    rfl
  | a :: t =>
    have hla : l.getLast? = some a := by
      rw [← List.head?_reverse, hr]
      rfl
    rw [List.dropWhile_cons_of_neg (by simp [h a hla]), ← hr,
      List.reverse_reverse]

theorem jsTrim_addWs (v : List Char) (hv : List.Chain' noDoubleSpacePair v) :
    jsTrimL (addWsAfterPunct v) = addWsAfterPunct (jsTrimL v) := by
  unfold jsTrimL
  rw [← dropWhile_addWs v hv]
  have hv2 : List.Chain' noDoubleSpacePair (v.dropWhile isJsSpace) :=
    chain'_dropWhile isJsSpace v hv
  match hlast : (v.dropWhile isJsSpace).getLast? with
  | none =>
    have hnil : v.dropWhile isJsSpace = [] := List.getLast?_eq_none_iff.mp hlast
    rw [hnil]
    rfl
  | some a =>
    by_cases hsa : isJsSpace a = true
    · obtain ⟨u, hu⟩ : ∃ u, v.dropWhile isJsSpace = u ++ [a] :=
        ⟨(v.dropWhile isJsSpace).dropLast,
          (List.dropLast_append_getLast? a hlast).symm⟩
      have hulast : ∀ x, u.getLast? = some x → isJsSpace x = false := by
        intro x hx
        have hch : List.Chain' noDoubleSpacePair (u ++ [a]) := hu ▸ hv2
        have hj := (List.chain'_append.mp hch).2.2 x hx a rfl
        by_cases h2 : isJsSpace x = true
        · exact absurd ⟨h2, hsa⟩ hj
        · exact Bool.eq_false_iff.mpr h2
      rw [hu, addWs_append_space a hsa u]
      have h1 : ((addWsAfterPunct u ++ [a]).reverse.dropWhile isJsSpace).reverse =
          addWsAfterPunct u := by
        rw [List.reverse_append, List.reverse_singleton, List.singleton_append,
          List.dropWhile_cons_of_pos hsa]
        cases hu2 : (addWsAfterPunct u).reverse with
        | nil =>
          simp only [List.dropWhile_nil, List.reverse_nil]
          rw [← List.reverse_reverse (addWsAfterPunct u), hu2]
          rfl
        | cons x xs =>
          have hxl : (addWsAfterPunct u).getLast? = some x := by
            rw [← List.head?_reverse, hu2]
            rfl
          rw [addWs_getLast?] at hxl
          rw [List.dropWhile_cons_of_neg (by simp [hulast x hxl]), ← hu2,
            List.reverse_reverse]
      have h2 : ((u ++ [a]).reverse.dropWhile isJsSpace).reverse = u := by
        rw [List.reverse_append, List.reverse_singleton, List.singleton_append,
          List.dropWhile_cons_of_pos hsa]
        cases hu2 : u.reverse with
        | nil =>
          simp only [List.dropWhile_nil, List.reverse_nil]
          rw [← List.reverse_reverse u, hu2]
          rfl
        | cons x xs =>
          have hxl : u.getLast? = some x := by
            rw [← List.head?_reverse, hu2]
            rfl
          rw [List.dropWhile_cons_of_neg (by simp [hulast x hxl]), ← hu2,
            List.reverse_reverse]
      rw [h1, h2]
    · have hsa2 : isJsSpace a = false := Bool.eq_false_iff.mpr hsa
      have h1 : ((addWsAfterPunct (v.dropWhile isJsSpace)).reverse.dropWhile
          isJsSpace).reverse = addWsAfterPunct (v.dropWhile isJsSpace) := by
        apply dropTrail_id
        intro x hx
        rw [addWs_getLast?, hlast] at hx
        injection hx with hx
        rw [← hx]
        exact hsa2
      have h2 : ((v.dropWhile isJsSpace).reverse.dropWhile isJsSpace).reverse =
          v.dropWhile isJsSpace := by
        apply dropTrail_id
        intro x hx
        rw [hlast] at hx
        injection hx with hx
        rw [← hx]
        exact hsa2
      rw [h1, h2]

/-! ### Invariants of the trimmed string -/

theorem chain'_jsTrim {R : Char → Char → Prop} (l : List Char)
    (h : List.Chain' R l) : List.Chain' R (jsTrimL l) := by
  have h1 : List.Chain' R (l.dropWhile isJsSpace) := chain'_dropWhile isJsSpace l h
  have h2 : List.Chain' (flip R) ((l.dropWhile isJsSpace).reverse) :=
    List.chain'_reverse.mpr h1
  have h3 := chain'_dropWhile isJsSpace _ h2
  exact List.chain'_reverse.mpr h3

theorem mem_jsTrim (l : List Char) (c : Char) (hc : c ∈ jsTrimL l) : c ∈ l := by
  unfold jsTrimL at hc
  rw [List.mem_reverse] at hc
  have hc2 := (List.dropWhile_sublist _).subset hc
  rw [List.mem_reverse] at hc2
  exact (List.dropWhile_sublist _).subset hc2

theorem allBlank_jsTrim (l : List Char) (hb : allBlank l) : allBlank (jsTrimL l) :=
  fun c hc hs => hb c (mem_jsTrim l c hc) hs

theorem jsTrimL_last_not_space (l : List Char) (c : Char)
    (h : (jsTrimL l).getLast? = some c) : isJsSpace c = false := by
  unfold jsTrimL at h
  rw [List.getLast?_reverse] at h
  exact head?_dropWhile_false isJsSpace _ c h

theorem jsTrim_id (l : List Char)
    (hh : ∀ c, l.head? = some c → isJsSpace c = false)
    (hl : ∀ c, l.getLast? = some c → isJsSpace c = false) : jsTrimL l = l := by
  unfold jsTrimL
  have h1 : l.dropWhile isJsSpace = l := by
    cases l with
    | nil => rfl
    | cons c t => exact List.dropWhile_cons_of_neg (by simp [hh c rfl])
  rw [h1]
  exact dropTrail_id l hl

/-! ### The idempotence theorem -/

theorem preprocess_core_idem (v : List Char)
    (hv1 : List.Chain' spacePairOk v) (hv2 : allBlank v)
    (hv3 : List.Chain' noCamelPair v) :
    preprocessL (jsTrimL (addWsAfterPunct v)) = jsTrimL (addWsAfterPunct v) := by
  have hvd : List.Chain' noDoubleSpacePair v := by
    refine hv1.imp ?_
    intro a b hab
    rintro ⟨ha, hb2⟩
    rw [(hab ha).1] at hb2
    simp at hb2
  rw [jsTrim_addWs v hvd]
  have ht1 : List.Chain' spacePairOk (jsTrimL v) := chain'_jsTrim v hv1
  have ht2 : allBlank (jsTrimL v) := allBlank_jsTrim v hv2
  have ht3 : List.Chain' noCamelPair (jsTrimL v) := chain'_jsTrim v hv3
  have hw_camel : List.Chain' noCamelPair (addWsAfterPunct (jsTrimL v)) :=
    addWs_chain_noCamel _ ht3
  have hw_blank : allBlank (addWsAfterPunct (jsTrimL v)) := addWs_allBlank _ ht2
  have hw_double : List.Chain' noDoubleSpacePair (addWsAfterPunct (jsTrimL v)) :=
    addWs_chain_noDouble _ ht1
  have hw_head : ∀ c, (addWsAfterPunct (jsTrimL v)).head? = some c →
      isJsSpace c = false := by
    intro c hc
    rw [addWs_head?] at hc
    exact jsTrimL_head_not_space v c hc
  have hw_last : ∀ c, (addWsAfterPunct (jsTrimL v)).getLast? = some c →
      isJsSpace c = false := by
    intro c hc
    rw [addWs_getLast?] at hc
    exact jsTrimL_last_not_space v c hc
  show jsTrimL (addWsAfterPunct (delWsAux [] (collapseWs (addCamelSpace
    (addWsAfterPunct (jsTrimL v)))))) = addWsAfterPunct (jsTrimL v)
  rw [addCamelSpace_id _ hw_camel, collapseWs_id _ hw_blank hw_double,
    delWs_addWs _ ht1, addWs_ins, jsTrim_id _ hw_head hw_last]

theorem preprocessL_idem (x : List Char) :
    preprocessL (preprocessL x) = preprocessL x := by
  have hv_camel := collapseWs_noCamel (addCamelSpace x) (addCamelSpace_noCamel x)
  have hv_blank := collapseWs_allBlank (addCamelSpace x)
  have hv_double := collapseWs_noDouble (addCamelSpace x)
  obtain ⟨hv1, hv2, hv3i, _⟩ := delWs_main (collapseWs (addCamelSpace x)).length
    (collapseWs (addCamelSpace x)) le_rfl hv_double hv_blank
  exact preprocess_core_idem (delWsAux [] (collapseWs (addCamelSpace x)))
    hv1 hv2 (hv3i hv_camel)

/-- Claim C2: `preprocessText` (the normalizer) is idempotent — applying it
twice gives the same string as applying it once, for every input string. -/
theorem preprocessText_idempotent (s : String) :
    preprocessText (preprocessText s) = preprocessText s := by
  show (⟨preprocessL (preprocessText s).data⟩ : String) = (⟨preprocessL s.data⟩ : String)
  have hdata : (preprocessText s).data = preprocessL s.data := rfl
  rw [hdata, preprocessL_idem]

end Rag
